import Mathlib

/-!
# Verification of the LEL course-scheduler allocation engine

This file gives a shallow embedding of the scheduler's core modules
(`src/utils/timeSlots.js`, `src/utils/quarterUtils.js`,
`src/utils/scheduleEngine.js`) and proves/refutes the specified properties.

Modelling conventions:
* JavaScript `Date` objects (always local-midnight dates in this code base) are
  modelled by a civil-calendar triple `Ymd` (1-based month and day).  Ordering
  and weekday extraction go through the rata-die number `toRD`; `format(date,
  "yyyy-MM-dd")` keys are injective on such dates, so grid keys are the `Ymd`
  values themselves and string-key equality is `Ymd` equality.
* Times `"HH:MM"` are pairs `Time` of hour and minute.  All time strings in the
  program are zero-padded with hour < 100, so JavaScript's string comparisons
  (`localeCompare`, and `<` on the colon-stripped `"HHMM"` forms) coincide with
  lexicographic/numeric comparison of `h * 100 + m`; `hhmm` realises this.
* `getTimeDifferenceInHours` divides by 60 with JavaScript number division; it
  is modelled exactly in `ℚ`.
* JavaScript `Map` objects (availability grid, course history) preserve
  insertion order and have unique keys; they are modelled by lists, with
  in-place mutation of an entry becoming a functional update of the list.
  `Array.findIndex` followed by a mutation of that index is modelled as a
  first-match functional update.
* The `while` loops of `calculateCadenceStartDates`, `getThanksgivingDate` and
  `getAllDatesInQuarter` run on explicit fuel that dominates the number of
  iterations the JavaScript loop performs (the cadence loop needs
  `cadence ≥ 1`, the engine's documented input contract, to terminate at all).
* `throw new Error(...)` becomes `Except.error`; `Array.prototype.sort` (stable
  since ES2019) with the engine's comparator becomes a stable insertion sort.
* The repository's `quarterUtils.js` exists in two revisions; the engine is
  written against the financial-year revision (quarters Apr–Jun … Jan–Mar,
  fiscal epoch April 1), which is the one embedded here.
* `generateCalendarGrid` (a display-only regrouping of the session list) is
  not needed by any claim and is omitted.  The internal final grid and course
  history, which several properties are about, are exposed in `FullResult`;
  `generateSchedule` itself projects them away.
-/

set_option maxRecDepth 40000

namespace CourseScheduler

/-! ## Calendar model -/

/-- A wall-clock time of day, the model of an `"HH:MM"` string. -/
structure Time where
  h : Nat
  m : Nat
deriving DecidableEq, Repr, Inhabited

/-- Numeric value of the colon-stripped `"HHMM"` string; JavaScript string
comparison of the zero-padded forms equals `Nat` comparison of this value. -/
def hhmm (t : Time) : Nat := t.h * 100 + t.m

/-- A calendar date (civil year/month/day, month and day 1-based). -/
structure Ymd where
  year : Nat
  month : Nat
  day : Nat
deriving DecidableEq, Repr, Inhabited

/-- Gregorian leap-year rule. -/
def isLeapYear (y : Nat) : Bool :=
  (y % 4 == 0 && y % 100 != 0) || y % 400 == 0

/-- Number of days in a month. -/
def daysInMonth (y m : Nat) : Nat :=
  if m = 2 then (if isLeapYear y then 29 else 28)
  else if m = 4 ∨ m = 6 ∨ m = 9 ∨ m = 11 then 30
  else 31

/-- Days in year `y` strictly before month `m` (months 1..m-1). -/
def daysBeforeMonth (y : Nat) : Nat → Nat
  | 0 => 0
  | m + 1 => if m = 0 then 0 else daysBeforeMonth y m + daysInMonth y m

/-- Days strictly before January 1 of year `y` counting from rata die 0
(i.e. `0001-01-01` has rata-die number 1, a Monday). -/
def daysBeforeYear (y : Nat) : Nat :=
  365 * (y - 1) + (y - 1) / 4 + (y - 1) / 400 - (y - 1) / 100

/-- Rata-die day number of a date; the model of `Date.prototype.getTime`
ordering (all engine dates are local midnight). -/
def toRD (d : Ymd) : Nat :=
  daysBeforeYear d.year + daysBeforeMonth d.year d.month + d.day

/-- Model of `Date.prototype.getDay`: 0 = Sunday … 6 = Saturday. -/
def dayOfWeek (d : Ymd) : Nat := toRD d % 7

/-- A structurally valid calendar date. -/
def validYmd (d : Ymd) : Prop :=
  1 ≤ d.year ∧ 1 ≤ d.month ∧ d.month ≤ 12 ∧ 1 ≤ d.day ∧ d.day ≤ daysInMonth d.year d.month

instance (d : Ymd) : Decidable (validYmd d) := by
  unfold validYmd; infer_instance

/-- Model of date-fns `addDays(date, 1)` / `setDate(getDate() + 1)`. -/
def nextDay (d : Ymd) : Ymd :=
  if d.day < daysInMonth d.year d.month then ⟨d.year, d.month, d.day + 1⟩
  else if d.month < 12 then ⟨d.year, d.month + 1, 1⟩
  else ⟨d.year + 1, 1, 1⟩

/-- Model of date-fns `addDays(date, n)` for `n ≥ 0`. -/
def addDaysN : Nat → Ymd → Ymd
  | 0, d => d
  | n + 1, d => addDaysN n (nextDay d)

/-! ## `timeSlots.js` -/

/-- One entry of a weekday template (source: `{ start, end }`; `end` is a Lean
keyword, so the field is named `endT`). -/
structure TimeSlot where
  start : Time
  endT : Time
deriving DecidableEq, Repr, Inhabited

/-- Source constant `WEEKLY_SCHEDULE.MONDAY` (14 slots, 8am skipped). -/
def MONDAY_SLOTS : List TimeSlot :=
  [⟨⟨6,0⟩,⟨6,30⟩⟩, ⟨⟨7,0⟩,⟨7,30⟩⟩, ⟨⟨9,0⟩,⟨9,30⟩⟩, ⟨⟨10,0⟩,⟨10,30⟩⟩,
   ⟨⟨11,0⟩,⟨11,30⟩⟩, ⟨⟨12,0⟩,⟨12,30⟩⟩, ⟨⟨13,0⟩,⟨13,30⟩⟩, ⟨⟨14,0⟩,⟨14,30⟩⟩,
   ⟨⟨15,0⟩,⟨15,30⟩⟩, ⟨⟨16,0⟩,⟨16,30⟩⟩, ⟨⟨17,0⟩,⟨17,30⟩⟩, ⟨⟨18,0⟩,⟨18,30⟩⟩,
   ⟨⟨19,0⟩,⟨19,30⟩⟩, ⟨⟨20,0⟩,⟨20,30⟩⟩]

/-- Source constant `WEEKLY_SCHEDULE.TUESDAY` (11 slots, 8am skipped). -/
def TUESDAY_SLOTS : List TimeSlot :=
  [⟨⟨6,0⟩,⟨6,30⟩⟩, ⟨⟨7,0⟩,⟨7,30⟩⟩, ⟨⟨9,0⟩,⟨9,30⟩⟩, ⟨⟨10,0⟩,⟨10,30⟩⟩,
   ⟨⟨11,0⟩,⟨11,30⟩⟩, ⟨⟨12,0⟩,⟨12,30⟩⟩, ⟨⟨13,0⟩,⟨13,30⟩⟩, ⟨⟨14,0⟩,⟨14,30⟩⟩,
   ⟨⟨15,0⟩,⟨15,30⟩⟩, ⟨⟨16,0⟩,⟨16,30⟩⟩, ⟨⟨17,0⟩,⟨17,30⟩⟩]

/-- Source constant `WEEKLY_SCHEDULE.WEDNESDAY` (12 slots). -/
def WEDNESDAY_SLOTS : List TimeSlot :=
  [⟨⟨6,0⟩,⟨6,30⟩⟩, ⟨⟨7,0⟩,⟨7,30⟩⟩, ⟨⟨8,0⟩,⟨8,30⟩⟩, ⟨⟨9,0⟩,⟨9,30⟩⟩,
   ⟨⟨10,0⟩,⟨10,30⟩⟩, ⟨⟨11,0⟩,⟨11,30⟩⟩, ⟨⟨12,0⟩,⟨12,30⟩⟩, ⟨⟨13,0⟩,⟨13,30⟩⟩,
   ⟨⟨14,0⟩,⟨14,30⟩⟩, ⟨⟨15,0⟩,⟨15,30⟩⟩, ⟨⟨16,0⟩,⟨16,30⟩⟩, ⟨⟨17,0⟩,⟨17,30⟩⟩]

/-- Source constant `WEEKLY_SCHEDULE.THURSDAY` (12 slots). -/
def THURSDAY_SLOTS : List TimeSlot :=
  [⟨⟨6,0⟩,⟨6,30⟩⟩, ⟨⟨7,0⟩,⟨7,30⟩⟩, ⟨⟨8,0⟩,⟨8,30⟩⟩, ⟨⟨9,0⟩,⟨9,30⟩⟩,
   ⟨⟨10,0⟩,⟨10,30⟩⟩, ⟨⟨11,0⟩,⟨11,30⟩⟩, ⟨⟨12,0⟩,⟨12,30⟩⟩, ⟨⟨13,0⟩,⟨13,30⟩⟩,
   ⟨⟨14,0⟩,⟨14,30⟩⟩, ⟨⟨15,0⟩,⟨15,30⟩⟩, ⟨⟨16,0⟩,⟨16,30⟩⟩, ⟨⟨17,0⟩,⟨17,30⟩⟩]

/-- Source constant `WEEKLY_SCHEDULE.FRIDAY` (8 slots, ends at 13:30). -/
def FRIDAY_SLOTS : List TimeSlot :=
  [⟨⟨6,0⟩,⟨6,30⟩⟩, ⟨⟨7,0⟩,⟨7,30⟩⟩, ⟨⟨8,0⟩,⟨8,30⟩⟩, ⟨⟨9,0⟩,⟨9,30⟩⟩,
   ⟨⟨10,0⟩,⟨10,30⟩⟩, ⟨⟨11,0⟩,⟨11,30⟩⟩, ⟨⟨12,0⟩,⟨12,30⟩⟩, ⟨⟨13,0⟩,⟨13,30⟩⟩]

/-- Source object `WEEKLY_SCHEDULE`, as key lookup (`WEEKLY_SCHEDULE[dayName]`,
`none` for absent keys so `.getD []` is the `|| []` fallback). -/
def WEEKLY_SCHEDULE (dayName : String) : Option (List TimeSlot) :=
  if dayName = "MONDAY" then some MONDAY_SLOTS
  else if dayName = "TUESDAY" then some TUESDAY_SLOTS
  else if dayName = "WEDNESDAY" then some WEDNESDAY_SLOTS
  else if dayName = "THURSDAY" then some THURSDAY_SLOTS
  else if dayName = "FRIDAY" then some FRIDAY_SLOTS
  else none

/-- Source constant `DAY_NAMES` (index = `getDay` value). -/
def DAY_NAMES : List String :=
  ["SUNDAY", "MONDAY", "TUESDAY", "WEDNESDAY", "THURSDAY", "FRIDAY", "SATURDAY"]

/-- The day name of a date: `DAY_NAMES[date.getDay()]`. -/
def dayNameOf (d : Ymd) : String := DAY_NAMES.getD (dayOfWeek d) ""

/-- Body of the `while (thursdayCount < 4)` search in `getThanksgivingDate`:
walk days from November 1, counting Thursdays, returning the fourth. -/
def thanksgivingLoop : Nat → Nat → Ymd → Ymd
  | 0, _, d => d
  | fuel + 1, thursdayCount, d =>
    if dayOfWeek d == 4 then
      if thursdayCount + 1 == 4 then d
      else thanksgivingLoop fuel (thursdayCount + 1) (nextDay d)
    else thanksgivingLoop fuel thursdayCount (nextDay d)

/-- Source `getThanksgivingDate`: fourth Thursday of November (the JavaScript
loop always returns within 28 day steps; fuel 31 dominates that). -/
def getThanksgivingDate (year : Nat) : Ymd :=
  thanksgivingLoop 31 0 ⟨year, 11, 1⟩

/-- Result shape of `getSpecialDatesForYear`. -/
structure SpecialDates where
  noSessionDates : List Ymd
  restrictedDates : List (Ymd × Time)
deriving DecidableEq, Repr

/-- Source `getSpecialDatesForYear` (source months are 0-based `Date`
arguments; they appear here 1-based). -/
def getSpecialDatesForYear (year : Nat) : SpecialDates :=
  { noSessionDates :=
      [⟨year, 1, 1⟩, ⟨year, 7, 4⟩, getThanksgivingDate year, ⟨year, 12, 25⟩]
    restrictedDates :=
      [(⟨year, 4, 17⟩, ⟨8, 30⟩), (⟨year, 5, 22⟩, ⟨8, 30⟩), (⟨year, 6, 19⟩, ⟨8, 30⟩),
       (⟨year, 12, 24⟩, ⟨13, 0⟩), (⟨year, 12, 31⟩, ⟨13, 0⟩)] }

/-- Source `getAvailableTimeSlots`.  The source compares dates via their
`format(·, 'yyyy-MM-dd')` strings, which is `Ymd` equality here; the
restricted-date filter compares colon-stripped `"HHMM"` strings, which is
`hhmm` comparison. -/
def getAvailableTimeSlots (date : Ymd) : List TimeSlot :=
  let dayName := dayNameOf date
  if dayName == "SUNDAY" || dayName == "SATURDAY" then []
  else
    let baseSlots := (WEEKLY_SCHEDULE dayName).getD []
    let specialDates := getSpecialDatesForYear date.year
    if specialDates.noSessionDates.any (fun d => d == date) then []
    else
      match specialDates.restrictedDates.find? (fun r => r.1 == date) with
      | some r => baseSlots.filter (fun slot => hhmm slot.start < hhmm r.2)
      | none => baseSlots

/-- Source `getTimeDifferenceInHours`: |minutes₁ − minutes₂| / 60 as an exact
rational (JavaScript number division). -/
def getTimeDifferenceInHours (time1 time2 : Time) : ℚ :=
  let minutes1 : ℚ := time1.h * 60 + time1.m
  let minutes2 : ℚ := time2.h * 60 + time2.m
  |minutes1 - minutes2| / 60

/-- Source `isValidForFinancialIntelligence`: Tuesday or Wednesday, start hour
in [10, 13). -/
def isValidForFinancialIntelligence (dayName : String) (startTime : Time) : Bool :=
  if dayName ≠ "TUESDAY" && dayName ≠ "WEDNESDAY" then false
  else 10 ≤ startTime.h && startTime.h < 13

/-- `needle` begins `hay` (character-wise). -/
def leadsWith : List Char → List Char → Bool
  | [], _ => true
  | _ :: _, [] => false
  | a :: as, b :: bs => a == b && leadsWith as bs

/-- `String.prototype.includes`: `needle` occurs contiguously in `hay`. -/
def containsSeq (needle : List Char) : List Char → Bool
  | [] => leadsWith needle []
  | c :: rest => leadsWith needle (c :: rest) || containsSeq needle rest

/-- The special-course test of `scheduleCourse`:
`title.toLowerCase().includes("financial intelligence")`. -/
def isFinancialIntelligenceTitle (title : String) : Bool :=
  containsSeq "financial intelligence".toList title.toLower.toList

/-! ## `quarterUtils.js` (financial-year revision) -/

/-- One entry of the `QUARTERS` table. -/
structure QuarterInfo where
  name : String
  months : List Nat
  label : String
deriving DecidableEq, Repr

/-- Source object `QUARTERS` as key lookup. -/
def QUARTERS (quarter : String) : Option QuarterInfo :=
  if quarter = "Q1" then some ⟨"Q1", [4, 5, 6], "Q1 (Apr-Jun)"⟩
  else if quarter = "Q2" then some ⟨"Q2", [7, 8, 9], "Q2 (Jul-Sep)"⟩
  else if quarter = "Q3" then some ⟨"Q3", [10, 11, 12], "Q3 (Oct-Dec)"⟩
  else if quarter = "Q4" then some ⟨"Q4", [1, 2, 3], "Q4 (Jan-Mar)"⟩
  else none

/-- Source `getQuarterDateRange`; `throw new Error` becomes `Except.error`.
`startOfMonth(new Date(y, m-1, 1))` is day 1 and `endOfMonth` the last day of
the month; Q4 rolls into the next calendar year. -/
def getQuarterDateRange (quarter : String) (year : Nat) : Except String (Ymd × Ymd) :=
  match QUARTERS quarter with
  | none => .error ("Invalid quarter: " ++ quarter)
  | some quarterInfo =>
    let firstMonth := quarterInfo.months.getD 0 0
    let lastMonth := quarterInfo.months.getD 2 0
    let startYear := if quarter = "Q4" then year + 1 else year
    let endYear := if quarter = "Q4" then year + 1 else year
    .ok (⟨startYear, firstMonth, 1⟩, ⟨endYear, lastMonth, daysInMonth endYear lastMonth⟩)

/-- Source `getFinancialYearStart`: April 1 of `year`. -/
def getFinancialYearStart (year : Nat) : Ymd := ⟨year, 4, 1⟩

/-- The `while (currentDate <= endDate)` push loop of `getAllDatesInQuarter`,
on fuel (`e` is the rata-die number of `endDate`). -/
def dateRangeAux : Nat → Ymd → Nat → List Ymd
  | 0, _, _ => []
  | fuel + 1, d, e => if toRD d ≤ e then d :: dateRangeAux fuel (nextDay d) e else []

/-- Source `getAllDatesInQuarter`; the fuel `toRD e + 1 - toRD s` is exactly
the number of iterations of the JavaScript loop. -/
def getAllDatesInQuarter (quarter : String) (year : Nat) : Except String (List Ymd) :=
  (getQuarterDateRange quarter year).map fun se =>
    dateRangeAux (toRD se.2 + 1 - toRD se.1) se.1 (toRD se.2)

/-- The business-weekday test of `getWeekdaysInQuarter`:
`day >= 1 && day <= 5` on `getDay`. -/
def bizDayB (d : Ymd) : Bool := decide (1 ≤ dayOfWeek d) && decide (dayOfWeek d ≤ 5)

/-- Source `getWeekdaysInQuarter`: Monday–Friday dates only. -/
def getWeekdaysInQuarter (quarter : String) (year : Nat) : Except String (List Ymd) :=
  (getAllDatesInQuarter quarter year).map (List.filter bizDayB)

/-! ## `scheduleEngine.js`: data -/

/-- A course record from the cadence file (`course.sessions` is the weekly
session count). -/
structure Course where
  title : String
  cadence : Nat
  sessions : Nat
deriving DecidableEq, Repr, Inhabited

/-- Occupant data stored in a grid slot (`slot.session`). -/
structure SlotBooking where
  course : String
  sessionNumber : Nat
deriving DecidableEq, Repr

/-- One slot of the availability grid (`{ ...slot, available, session }`). -/
structure GridSlot where
  start : Time
  endT : Time
  available : Bool
  session : Option SlotBooking
deriving DecidableEq, Repr

/-- One value of the grid `Map` (`{ date, slots }`). -/
structure DayData where
  date : Ymd
  slots : List GridSlot
deriving DecidableEq, Repr

/-- The availability grid: a `Map` in insertion order with unique date keys. -/
abbrev Grid := List DayData

/-- A scheduled session as pushed by `scheduleCourseSessions`. -/
structure SessionRec where
  date : Ymd
  courseName : String
  sessionNumber : Nat
  startTime : Time
  endTime : Time
  instructorFirstName : String
  instructorLastName : String
deriving DecidableEq, Repr, Inhabited

/-- One entry of a course's history (`{ startDate, dayOfWeek, startTime }`). -/
structure HistEntry where
  startDate : Ymd
  dayOfWeek : String
  startTime : Time
deriving DecidableEq, Repr

/-- The `courseHistory` map: association list in insertion order. -/
abbrev History := List (String × List HistEntry)

/-- `courseHistory.get(title) || []`. -/
def histOf (courseHistory : History) (title : String) : List HistEntry :=
  match courseHistory.find? (fun p => p.1 == title) with
  | some p => p.2
  | none => []

/-- `courseHistory.set(title, v)`: update in place, else append. -/
def histSet (courseHistory : History) (title : String) (v : List HistEntry) : History :=
  if courseHistory.any (fun p => p.1 == title) then
    courseHistory.map (fun p => if p.1 == title then (p.1, v) else p)
  else courseHistory ++ [(title, v)]

/-- Return value of `findSuitableSlot`. -/
structure SuitableSlot where
  dayOfWeek : String
  startTime : Time
  endTime : Time
deriving DecidableEq, Repr

/-- The statistics object of `calculateStatistics`.  `utilizationPercentage`
is modelled as the exact rational the `toFixed(2)` string denotes. -/
structure Statistics where
  totalAvailableSlots : Nat
  slotsAfterScheduling : Nat
  totalScheduledSessions : Nat
  fullyBookedDates : List Ymd
  utilizationPercentage : ℚ
deriving DecidableEq, Repr, Inhabited

/-! ## `scheduleEngine.js`: functions -/

/-- Source `initializeAvailabilityGrid`, under a shortened name: seed one
`DayData` per date, all slots available. -/
def initAvailabilityGrid (dates : List Ymd) : Grid :=
  dates.map fun date =>
    ⟨date, (getAvailableTimeSlots date).map fun slot => ⟨slot.start, slot.endT, true, none⟩⟩

/-- The slot scan of `findSuitableSlot` (the `for (const slot of dayData.slots)`
loop with its `continue`/`return` structure). -/
def findSuitableSlotLoop (isFI : Bool) (dayOfWeekName : String)
    (lastInstance : Option HistEntry) : List GridSlot → Option SuitableSlot
  | [] => none
  | slot :: rest =>
    if slot.available = false then findSuitableSlotLoop isFI dayOfWeekName lastInstance rest
    else if isFI && !isValidForFinancialIntelligence dayOfWeekName slot.start then
      findSuitableSlotLoop isFI dayOfWeekName lastInstance rest
    else
      match lastInstance with
      | some last =>
        if !isFI && dayOfWeekName == last.dayOfWeek then
          findSuitableSlotLoop isFI dayOfWeekName lastInstance rest
        else if getTimeDifferenceInHours slot.start last.startTime < 3 then
          findSuitableSlotLoop isFI dayOfWeekName lastInstance rest
        else some ⟨dayOfWeekName, slot.start, slot.endT⟩
      | none => some ⟨dayOfWeekName, slot.start, slot.endT⟩

/-- Source `findSuitableSlot` (the unused `course` parameter is kept from the
source signature). -/
def findSuitableSlot (date : Ymd) (course : Course) (availabilityGrid : Grid)
    (history : List HistEntry) (isFI : Bool) : Option SuitableSlot :=
  match availabilityGrid.find? (fun day => day.date == date) with
  | none => none
  | some dayData =>
    findSuitableSlotLoop isFI (dayNameOf date) history.getLast? dayData.slots

/-- Source `findNextAvailableDate`: first quarter date on/after `fromDate`
with the target weekday (`DAY_NAMES.indexOf` = `findIdx`, where an absent name
gives an index ≥ 7 that never matches a `getDay` value, like `indexOf`'s -1). -/
def findNextAvailableDate (fromDate : Ymd) (targetDayOfWeek : String)
    (quarterDates : List Ymd) : Option Ymd :=
  let targetDayIndex := DAY_NAMES.findIdx (fun s => s == targetDayOfWeek)
  quarterDates.find? fun date =>
    decide (toRD fromDate ≤ toRD date) && (dayOfWeek date == targetDayIndex)

/-- `findIndex(s => s.start === t)` followed by marking that slot free:
first-match functional update (used by `rollbackSessions`). -/
def releaseAt : List GridSlot → Time → List GridSlot
  | [], _ => []
  | s :: rest, t =>
    if s.start == t then { s with available := true, session := none } :: rest
    else s :: releaseAt rest t

/-- `findIndex(s => s.start === t && s.available)` followed by marking that
slot occupied; `none` models index -1 (used by `scheduleCourseSessions`). -/
def bookAt : List GridSlot → Time → String → Nat → Option (List GridSlot)
  | [], _, _, _ => none
  | s :: rest, t, c, n =>
    if s.start == t && s.available then
      some ({ s with available := false, session := some ⟨c, n⟩ } :: rest)
    else (bookAt rest t c n).map (s :: ·)

/-- Replace the slot list of the day keyed `d` (in-place mutation of the found
`Map` entry). -/
def setDaySlots (grid : Grid) (d : Ymd) (slots' : List GridSlot) : Grid :=
  grid.map fun day => if day.date == d then { day with slots := slots' } else day

/-- Source `rollbackSessions`: release each session's slot (day lookup may
fail silently; a missing start time leaves the slots unchanged). -/
def rollbackSessions (sessions : List SessionRec) (availabilityGrid : Grid) : Grid :=
  sessions.foldl
    (fun grid session =>
      grid.map fun dayData =>
        if dayData.date == session.date then
          { dayData with slots := releaseAt dayData.slots session.startTime }
        else dayData)
    availabilityGrid

/-- The `for (let sessionNum = 1; ...)` booking loop of
`scheduleCourseSessions`: recursion on the remaining session count, carrying
the running date cursor and the sessions booked so far in this attempt. -/
def sessionsLoop (course : Course) (suitableSlot : SuitableSlot) (quarterDates : List Ymd) :
    Nat → Nat → Ymd → List SessionRec → Grid → List SessionRec × Grid
  | 0, _, _, sessions, grid => (sessions, grid)
  | remaining + 1, sessionNum, currentSessionDate, sessions, grid =>
    match findNextAvailableDate currentSessionDate suitableSlot.dayOfWeek quarterDates with
    | none => ([], rollbackSessions sessions grid)
    | some sessionDate =>
      match grid.find? (fun day => day.date == sessionDate) with
      | none => ([], rollbackSessions sessions grid)
      | some dayData =>
        match bookAt dayData.slots suitableSlot.startTime course.title sessionNum with
        | none => ([], rollbackSessions sessions grid)
        | some slots' =>
          sessionsLoop course suitableSlot quarterDates remaining (sessionNum + 1)
            (addDaysN 7 sessionDate)
            (sessions ++ [⟨sessionDate, course.title, sessionNum,
              suitableSlot.startTime, suitableSlot.endTime, "", ""⟩])
            (setDaySlots grid sessionDate slots')

/-- Source `scheduleCourseSessions`: pick a slot, then book all
`course.sessions` weekly occurrences or roll back. -/
def scheduleCourseSessions (course : Course) (startDate : Ymd) (quarterDates : List Ymd)
    (availabilityGrid : Grid) (courseHistory : History) (isFI : Bool) :
    List SessionRec × Grid :=
  let history := histOf courseHistory course.title
  match findSuitableSlot startDate course availabilityGrid history isFI with
  | none => ([], availabilityGrid)
  | some suitableSlot =>
    sessionsLoop course suitableSlot quarterDates course.sessions 1 startDate [] availabilityGrid

/-- The `while (currentDate.getDay() === 0 || === 6)` skip in
`calculateCadenceStartDates` (at most two steps; fuel 7 dominates). -/
def skipWeekend : Nat → Ymd → Ymd
  | 0, d => d
  | fuel + 1, d =>
    if dayOfWeek d == 0 || dayOfWeek d == 6 then skipWeekend fuel (nextDay d)
    else d

/-- The `while (currentDate <= financialYearEnd)` loop of
`calculateCadenceStartDates`: push dates on/before the quarter's last date
(`lastQuarterRD = none` models an empty `quarterDates`, whose JavaScript
comparison against `undefined` is always false). -/
def cadenceLoop (cadence : Nat) (fyEndRD : Nat) (lastQuarterRD : Option Nat) :
    Nat → Ymd → List Ymd
  | 0, _ => []
  | fuel + 1, currentDate =>
    if toRD currentDate ≤ fyEndRD then
      (match lastQuarterRD with
       | some l => if toRD currentDate ≤ l then [currentDate] else []
       | none => []) ++
      cadenceLoop cadence fyEndRD lastQuarterRD fuel (addDaysN (7 * cadence) currentDate)
    else []

/-- Source `calculateCadenceStartDates`.  `financialYearEnd` is March 31 of
the next year (the source's copy/setFullYear/setMonth/setDate sequence hits no
normalisation).  The fuel dominates the iteration count whenever
`course.cadence ≥ 1` (with cadence 0 the JavaScript loop never terminates). -/
def calculateCadenceStartDates (course : Course) (financialYearStart : Ymd)
    (quarterDates : List Ymd) : List Ymd :=
  let financialYearEnd : Ymd := ⟨financialYearStart.year + 1, 3, 31⟩
  let firstWeekday := skipWeekend 7 financialYearStart
  cadenceLoop course.cadence (toRD financialYearEnd) ((quarterDates.getLast?).map toRD)
    (toRD financialYearEnd + 1) firstWeekday

/-- The `for (const startDate of availableDates)` loop of `scheduleCourse`:
attempt an instance at each candidate date, appending successful instances and
advancing the course history. -/
def tryStartDates (course : Course) (quarterDates : List Ymd) (isFI : Bool) :
    List Ymd → Grid → History → List SessionRec × Grid × History
  | [], grid, courseHistory => ([], grid, courseHistory)
  | startDate :: rest, grid, courseHistory =>
    match scheduleCourseSessions course startDate quarterDates grid courseHistory isFI with
    | ([], grid') => tryStartDates course quarterDates isFI rest grid' courseHistory
    | (s0 :: scheduledRest, grid') =>
      let history := histOf courseHistory course.title
      let courseHistory' := histSet courseHistory course.title
        (history ++ [⟨startDate, dayNameOf startDate, s0.startTime⟩])
      let res := tryStartDates course quarterDates isFI rest grid' courseHistory'
      ((s0 :: scheduledRest) ++ res.1, res.2.1, res.2.2)

/-- The `cadenceStartDates.forEach` loop of `scheduleCourse`. -/
def perCadenceDates (course : Course) (quarterDates : List Ymd) (isFI : Bool) :
    List Ymd → Grid → History → List SessionRec × Grid × History
  | [], grid, courseHistory => ([], grid, courseHistory)
  | cadenceDate :: rest, grid, courseHistory =>
    let availableDates := quarterDates.filter fun date => decide (toRD cadenceDate ≤ toRD date)
    let r1 := tryStartDates course quarterDates isFI availableDates grid courseHistory
    let r2 := perCadenceDates course quarterDates isFI rest r1.2.1 r1.2.2
    (r1.1 ++ r2.1, r2.2.1, r2.2.2)

/-- Source `scheduleCourse`. -/
def scheduleCourse (course : Course) (financialYearStart : Ymd) (quarterDates : List Ymd)
    (availabilityGrid : Grid) (courseHistory : History) :
    List SessionRec × Grid × History :=
  let isFI := isFinancialIntelligenceTitle course.title
  let cadenceStartDates := calculateCadenceStartDates course financialYearStart quarterDates
  perCadenceDates course quarterDates isFI cadenceStartDates availabilityGrid courseHistory

/-- The `courses.forEach` loop of `generateSchedule`. -/
def scheduleAllCourses (financialYearStart : Ymd) (quarterDates : List Ymd) :
    List Course → Grid → History → List SessionRec × Grid × History
  | [], grid, courseHistory => ([], grid, courseHistory)
  | course :: rest, grid, courseHistory =>
    let r1 := scheduleCourse course financialYearStart quarterDates grid courseHistory
    let r2 := scheduleAllCourses financialYearStart quarterDates rest r1.2.1 r1.2.2
    (r1.1 ++ r2.1, r2.2.1, r2.2.2)

/-- Model of `.toFixed(2)` on a non-negative JavaScript number: round
half-away-from-zero to two decimal places (exact rational idealisation of the
binary-double operation). -/
def toFixed2 (x : ℚ) : ℚ := (Rat.floor (x * 100 + 1 / 2) : ℚ) / 100

/-- Source `calculateStatistics`: one pass over the grid accumulating slot
totals and fully-booked dates, in grid (insertion) order. -/
def calculateStatistics (availabilityGrid : Grid) (sessions : List SessionRec) : Statistics :=
  let acc := availabilityGrid.foldl
    (fun (acc : Nat × Nat × List Ymd) dayData =>
      let dayTotalSlots := dayData.slots.length
      let dayAvailableSlots := (dayData.slots.filter (·.available)).length
      (acc.1 + dayTotalSlots, acc.2.1 + dayAvailableSlots,
        if dayTotalSlots > 0 && dayAvailableSlots == 0 then acc.2.2 ++ [dayData.date]
        else acc.2.2))
    (0, 0, [])
  { totalAvailableSlots := acc.1
    slotsAfterScheduling := acc.2.1
    totalScheduledSessions := sessions.length
    fullyBookedDates := acc.2.2
    utilizationPercentage :=
      if acc.1 > 0 then toFixed2 ((((acc.1 : ℚ) - (acc.2.1 : ℚ)) / (acc.1 : ℚ)) * 100)
      else 0 }

/-- The engine's session sort order: date ascending, then start time by string
comparison (zero-padded, so `hhmm` order). -/
def sessionOrder (a b : SessionRec) : Prop :=
  toRD a.date < toRD b.date ∨ (toRD a.date = toRD b.date ∧ hhmm a.startTime ≤ hhmm b.startTime)

instance : DecidableRel sessionOrder := by
  unfold sessionOrder; infer_instance

/-- Result of a run with the internal end-of-run state (final grid, course
history) exposed for verification. -/
structure FullResult where
  scheduledSessions : List SessionRec
  statistics : Statistics
  finalGrid : Grid
  courseHistory : History
deriving DecidableEq, Repr, Inhabited

/-- Source `generateSchedule`, with the final grid and history also returned.
The `sort` (stable since ES2019) is a stable insertion sort on
`sessionOrder`. -/
def generateScheduleFull (courses : List Course) (quarter : String) (year : Nat) :
    Except String FullResult :=
  let financialYearStart := getFinancialYearStart year
  match getWeekdaysInQuarter quarter year with
  | .error e => .error e
  | .ok quarterDates =>
    let availabilityGrid := initAvailabilityGrid quarterDates
    let r := scheduleAllCourses financialYearStart quarterDates courses availabilityGrid []
    let sorted := List.insertionSort sessionOrder r.1
    .ok ⟨sorted, calculateStatistics r.2.1 sorted, r.2.1, r.2.2⟩

/-- Source `generateSchedule`'s externally visible output (sessions and
statistics). -/
def generateSchedule (courses : List Course) (quarter : String) (year : Nat) :
    Except String (List SessionRec × Statistics) :=
  (generateScheduleFull courses quarter year).map fun r => (r.scheduledSessions, r.statistics)

/-! ## Statement-level definitions -/

/-- Number of sessions in `sessions` occupying the pair (date `d`, start
time `t`). -/
def occCount (sessions : List SessionRec) (d : Ymd) (t : Time) : Nat :=
  sessions.countP fun s => s.date == d && s.startTime == t

/-- All dates of a list are structurally valid. -/
def validDates (l : List Ymd) : Prop := ∀ d ∈ l, validYmd d

/-- Well-formedness of an availability grid: unique date keys, slot lists
shaped exactly by `getAvailableTimeSlots`, and free slots carry no occupant. -/
def WFgrid (grid : Grid) : Prop :=
  (grid.map (·.date)).Nodup ∧
  (∀ day ∈ grid, day.slots.map (fun s => (s.start, s.endT)) =
    (getAvailableTimeSlots day.date).map fun ts => (ts.start, ts.endT)) ∧
  (∀ day ∈ grid, ∀ s ∈ day.slots, s.available = true → s.session = none)

/-- Grid/session-list consistency: every slot is occupied exactly when
exactly one session of the list sits on its date and start time. -/
def Consistent (grid : Grid) (sessions : List SessionRec) : Prop :=
  ∀ day ∈ grid, ∀ s ∈ day.slots,
    occCount sessions day.date s.start = (if s.available then 0 else 1)

/-- Every session of the list sits on a date and start time that exist in the
grid. -/
def InGrid (grid : Grid) (sessions : List SessionRec) : Prop :=
  ∀ sess ∈ sessions, ∃ day ∈ grid, day.date = sess.date ∧
    ∃ s ∈ day.slots, s.start = sess.startTime

/-- Every session of a special-rules (financial-intelligence) course sits in
the special day/time window. -/
def fiWindowOk (sessions : List SessionRec) : Prop :=
  ∀ s ∈ sessions, isFinancialIntelligenceTitle s.courseName = true →
    isValidForFinancialIntelligence (dayNameOf s.date) s.startTime = true

/-- History entries of special-rules titles carry start times inside the
special hour window with a well-formed minute field. -/
def HistTimes (ch : History) : Prop :=
  ∀ t, isFinancialIntelligenceTitle t = true → ∀ e ∈ histOf ch t,
    10 ≤ e.startTime.h ∧ e.startTime.h < 13 ∧ e.startTime.m < 60

/-- The separation the engine enforces between an instance and the one booked
immediately before it: different stored weekday, start times at least three
hours apart. -/
def sepRel (a b : HistEntry) : Prop :=
  a.dayOfWeek ≠ b.dayOfWeek ∧ 3 ≤ getTimeDifferenceInHours b.startTime a.startTime

/-- The separation constraint phrased on start-date weekdays (the claim's
phrasing). -/
def sepRelD (a b : HistEntry) : Prop :=
  dayOfWeek a.startDate ≠ dayOfWeek b.startDate ∧
    3 ≤ getTimeDifferenceInHours b.startTime a.startTime

/-- Every non-special course's history satisfies `sepRel` between
consecutive entries (consecutive in booking order). -/
def SepChain (ch : History) : Prop :=
  ∀ t, isFinancialIntelligenceTitle t = false → List.Chain' sepRel (histOf ch t)

/-- History entries store the day name of their start date. -/
def HistDayNames (ch : History) : Prop :=
  ∀ t, ∀ e ∈ histOf ch t, e.dayOfWeek = dayNameOf e.startDate

/-- The number of session-1 records of a title equals the number of history
entries of that title (instances booked). -/
def InstCount (sessions : List SessionRec) (ch : History) : Prop :=
  ∀ t, (sessions.countP fun s => s.courseName == t && s.sessionNumber == 1) =
    (histOf ch t).length

/-- Special-rules titles have at most one booked instance. -/
def FIHistLen (ch : History) : Prop :=
  ∀ t, isFinancialIntelligenceTitle t = true → (histOf ch t).length ≤ 1

/-- The grid/session part of the engine's run invariant. -/
structure CoreInv (grid : Grid) (sessions : List SessionRec) : Prop where
  wf : WFgrid grid
  consistent : Consistent grid sessions
  inGrid : InGrid grid sessions
  fiWindows : fiWindowOk sessions

/-- The engine's run invariant, maintained by every course/attempt step. -/
structure EngineInv (grid : Grid) (sessions : List SessionRec) (ch : History) : Prop where
  core : CoreInv grid sessions
  histTimes : HistTimes ch
  sepChain : SepChain ch
  histDays : HistDayNames ch
  instCount : InstCount sessions ch
  fiHistLen : FIHistLen ch

/-- Functional update of the day keyed `d` in a grid (the shape shared by
booking and rollback: look the day up, replace its slot list). -/
def modDay (grid : Grid) (d : Ymd) (f : List GridSlot → List GridSlot) : Grid :=
  grid.map fun day => if day.date == d then { day with slots := f day.slots } else day

/-- A course's instances (history entries) ordered by start date (stably, so
ties keep booking order). -/
def instancesByStartDate (r : FullResult) (title : String) : List HistEntry :=
  List.insertionSort (fun a b => toRD a.startDate ≤ toRD b.startDate)
    (histOf r.courseHistory title)

/-- Boolean check of `sepRelD` for one adjacent pair. -/
def sepOkB (a b : HistEntry) : Bool :=
  (dayOfWeek a.startDate != dayOfWeek b.startDate) &&
    decide (3 ≤ getTimeDifferenceInHours b.startTime a.startTime)

/-- Boolean check that every adjacent pair of a list satisfies `f`. -/
def adjacentAll (f : HistEntry → HistEntry → Bool) : List HistEntry → Bool
  | [] => true
  | [_] => true
  | a :: b :: rest => f a b && adjacentAll f (b :: rest)

/-- The utilization formula as the specification words it: booked share of
all slots, as a percentage rounded to two decimal places; zero when there are
no slots. -/
def utilizationSpec (total free : Nat) : ℚ :=
  if total = 0 then 0 else toFixed2 ((((total : ℚ) - (free : ℚ)) / (total : ℚ)) * 100)

/-- Total slot count of a grid. -/
def totalSlotCount (grid : Grid) : Nat := (grid.map fun day => day.slots.length).sum

/-- Free (available) slot count of a grid. -/
def freeSlotCount (grid : Grid) : Nat :=
  (grid.map fun day => (day.slots.filter (·.available)).length).sum

/-- The fully-booked-dates list as the specification words it: the dates with
at least one slot and no free slot, in grid order. -/
def fullyBookedSpec (grid : Grid) : List Ymd :=
  (grid.filter fun day =>
    day.slots.length > 0 && (day.slots.filter (·.available)).length == 0).map (·.date)

/-- The canonical form of a quarter's business-weekday list: `n` consecutive
days from `s`, filtered to Monday–Friday. -/
def quarterRange (s : Ymd) (n : Nat) : List Ymd :=
  ((List.range n).map fun i => addDaysN i s).filter bizDayB

/-- A concrete full run with no courses (Q1 of year 1), used to exhibit runs
that return `.ok`. -/
def emptyRun : FullResult := (generateScheduleFull [] "Q1" 1).toOption.getD default

/-- A concrete full run of one ordinary course ("crsx", cadence 12, one weekly
session per instance) in Q1 of year 1. -/
def crsxRun : FullResult :=
  (generateScheduleFull [⟨"crsx", 12, 1⟩] "Q1" 1).toOption.getD default

/-- A concrete successful one-session booking attempt on the five-day window
starting April 1 of year 1 (April 2 is the first business day). -/
def c5run : List SessionRec × Grid :=
  scheduleCourseSessions ⟨"c", 1, 1⟩ ⟨1, 4, 2⟩ (quarterRange ⟨1, 4, 1⟩ 5)
    (initAvailabilityGrid (quarterRange ⟨1, 4, 1⟩ 5)) [] false

/-! ## Calendar lemmas -/

theorem daysInMonth_pos (y m : Nat) : 1 ≤ daysInMonth y m := by
  unfold daysInMonth; split_ifs <;> omega

theorem daysBeforeMonth_succ (y m : Nat) (h : 1 ≤ m) :
    daysBeforeMonth y (m + 1) = daysBeforeMonth y m + daysInMonth y m := by
  cases m with
  | zero => omega
  | succ k => simp [daysBeforeMonth]

theorem daysInYear (y : Nat) :
    daysBeforeMonth y 12 + daysInMonth y 12 = if isLeapYear y then 366 else 365 := by
  by_cases h : isLeapYear y <;>
    simp [daysBeforeMonth, daysInMonth, h]

set_option maxHeartbeats 1600000 in
theorem daysBeforeYear_succ (y : Nat) (h : 1 ≤ y) :
    daysBeforeYear (y + 1) = daysBeforeYear y + (if isLeapYear y then 366 else 365) := by
  obtain ⟨k, rfl⟩ : ∃ k, y = k + 1 := ⟨y - 1, by omega⟩
  unfold daysBeforeYear isLeapYear
  simp only [Nat.add_sub_cancel]
  have h4 : (k + 1 + 1 - 1) / 4 = (k + 1 - 1) / 4 + if 4 ∣ k + 1 then 1 else 0 := by
    simpa using Nat.succ_div k 4
  have h100 : (k + 1 + 1 - 1) / 100 = (k + 1 - 1) / 100 + if 100 ∣ k + 1 then 1 else 0 := by
    simpa using Nat.succ_div k 100
  have h400 : (k + 1 + 1 - 1) / 400 = (k + 1 - 1) / 400 + if 400 ∣ k + 1 then 1 else 0 := by
    simpa using Nat.succ_div k 400
  simp only [Nat.add_sub_cancel] at h4 h100 h400 ⊢
  rw [h4, h100, h400]
  have d4 : 4 ∣ k + 1 ↔ (k + 1) % 4 = 0 := Nat.dvd_iff_mod_eq_zero
  have d100 : 100 ∣ k + 1 ↔ (k + 1) % 100 = 0 := Nat.dvd_iff_mod_eq_zero
  have d400 : 400 ∣ k + 1 ↔ (k + 1) % 400 = 0 := Nat.dvd_iff_mod_eq_zero
  have dleap : (((k + 1) % 4 == 0 && (k + 1) % 100 != 0 || (k + 1) % 400 == 0) = true) ↔
      ((k + 1) % 4 = 0 ∧ (k + 1) % 100 ≠ 0 ∨ (k + 1) % 400 = 0) := by
    simp [Bool.and_eq_true, Bool.or_eq_true, beq_iff_eq, bne_iff_ne]
  rw [if_congr d4 rfl rfl, if_congr d100 rfl rfl, if_congr d400 rfl rfl,
    if_congr dleap rfl rfl]
  clear h4 h100 h400 d4 d100 d400 dleap
  by_cases c4 : (k + 1) % 4 = 0 <;> by_cases c100 : (k + 1) % 100 = 0 <;>
    by_cases c400 : (k + 1) % 400 = 0
  · rw [if_pos c4, if_pos c100, if_pos c400, if_pos (Or.inr c400)]
    have h1 : k / 100 ≤ 365 * k + k / 4 + k / 400 :=
      le_trans (Nat.div_le_self _ _) (by omega)
    have h2 : k / 100 + 1 ≤ 365 * (k + 1) + (k / 4 + 1) + (k / 400 + 1) := by omega
    zify [h1, h2]
    ring
  · rw [if_pos c4, if_pos c100, if_neg c400,
      if_neg (fun hl => hl.elim (fun hab => hab.2 c100) c400)]
    have h1 : k / 100 ≤ 365 * k + k / 4 + k / 400 :=
      le_trans (Nat.div_le_self _ _) (by omega)
    have h2 : k / 100 + 1 ≤ 365 * (k + 1) + (k / 4 + 1) + (k / 400 + 0) := by omega
    zify [h1, h2]
    ring
  · exfalso
    omega
  · rw [if_pos c4, if_neg c100, if_neg c400, if_pos (Or.inl (And.intro c4 c100))]
    have h1 : k / 100 ≤ 365 * k + k / 4 + k / 400 :=
      le_trans (Nat.div_le_self _ _) (by omega)
    have h2 : k / 100 + 0 ≤ 365 * (k + 1) + (k / 4 + 1) + (k / 400 + 0) := by omega
    zify [h1, h2]
    ring
  · exfalso
    omega
  · exfalso
    omega
  · exfalso
    omega
  · rw [if_neg c4, if_neg c100, if_neg c400,
      if_neg (fun hl => hl.elim (fun hab => c4 hab.1) c400)]
    have h1 : k / 100 ≤ 365 * k + k / 4 + k / 400 :=
      le_trans (Nat.div_le_self _ _) (by omega)
    have h2 : k / 100 + 0 ≤ 365 * (k + 1) + (k / 4 + 0) + (k / 400 + 0) := by omega
    zify [h1, h2]
    ring

theorem validYmd_nextDay {d : Ymd} (h : validYmd d) : validYmd (nextDay d) := by
  obtain ⟨hy, hm1, hm2, hd1, hd2⟩ := h
  unfold nextDay
  split
  · next hlt =>
    exact ⟨hy, hm1, hm2, by show 1 ≤ d.day + 1; omega,
      by show d.day + 1 ≤ daysInMonth d.year d.month; omega⟩
  · next hge =>
    split
    · next hlt12 =>
      exact ⟨hy, by show 1 ≤ d.month + 1; omega, by show d.month + 1 ≤ 12; omega,
        by show 1 ≤ 1; omega, daysInMonth_pos d.year (d.month + 1)⟩
    · next hge12 =>
      exact ⟨by show 1 ≤ d.year + 1; omega, by show 1 ≤ 1; omega, by show 1 ≤ 12; omega,
        by show 1 ≤ 1; omega, daysInMonth_pos (d.year + 1) 1⟩

theorem toRD_nextDay {d : Ymd} (h : validYmd d) : toRD (nextDay d) = toRD d + 1 := by
  obtain ⟨hy, hm1, hm2, hd1, hd2⟩ := h
  unfold nextDay
  split
  · next hlt => simp only [toRD]; omega
  · next hge =>
    split
    · next hm =>
      have hdd : d.day = daysInMonth d.year d.month := by omega
      show daysBeforeYear d.year + daysBeforeMonth d.year (d.month + 1) + 1 = toRD d + 1
      rw [daysBeforeMonth_succ d.year d.month hm1]
      unfold toRD
      omega
    · next hm =>
      have hm12 : d.month = 12 := by omega
      have hdd : d.day = daysInMonth d.year 12 := by rw [← hm12]; omega
      have h1 := daysBeforeYear_succ d.year hy
      have h2 := daysInYear d.year
      have h3 : daysBeforeMonth (d.year + 1) 1 = 0 := by simp [daysBeforeMonth]
      show daysBeforeYear (d.year + 1) + daysBeforeMonth (d.year + 1) 1 + 1 = toRD d + 1
      unfold toRD
      rw [h3, hm12]
      cases hL : isLeapYear d.year <;> rw [hL] at h1 h2 <;> simp at h1 h2 <;> omega

theorem addDaysN_succ_comm (n : Nat) (d : Ymd) :
    addDaysN (n + 1) d = addDaysN n (nextDay d) := rfl

theorem validYmd_addDaysN (n : Nat) {d : Ymd} (h : validYmd d) : validYmd (addDaysN n d) := by
  induction n generalizing d with
  | zero => exact h
  | succ k ih => exact ih (validYmd_nextDay h)

theorem toRD_addDaysN (n : Nat) {d : Ymd} (h : validYmd d) :
    toRD (addDaysN n d) = toRD d + n := by
  induction n generalizing d with
  | zero => rfl
  | succ k ih =>
    rw [addDaysN_succ_comm, ih (validYmd_nextDay h), toRD_nextDay h]
    omega

theorem addDaysN_add (a b : Nat) (d : Ymd) :
    addDaysN (a + b) d = addDaysN b (addDaysN a d) := by
  induction a generalizing d with
  | zero => simp [addDaysN]
  | succ k ih =>
    have h : k + 1 + b = (k + b) + 1 := by omega
    rw [h, addDaysN_succ_comm, addDaysN_succ_comm, ih]

theorem dayOfWeek_lt (d : Ymd) : dayOfWeek d < 7 := Nat.mod_lt _ (by norm_num)

theorem validYmd_mk {y m d : Nat} (hy : 1 ≤ y) (hm1 : 1 ≤ m) (hm2 : m ≤ 12)
    (hd1 : 1 ≤ d) (hd2 : d ≤ daysInMonth y m) : validYmd ⟨y, m, d⟩ :=
  ⟨hy, hm1, hm2, hd1, hd2⟩

/-! ## Quarter-date structure -/

theorem dateRangeAux_eq (fuel : Nat) {d : Ymd} (e : Nat) (h : validYmd d) :
    dateRangeAux fuel d e =
      (List.range (min fuel (e + 1 - toRD d))).map fun i => addDaysN i d := by
  induction fuel generalizing d with
  | zero => simp [dateRangeAux]
  | succ n ih =>
    by_cases hle : toRD d ≤ e
    · have hmin : min (n + 1) (e + 1 - toRD d) = min n (e - toRD d) + 1 := by omega
      rw [dateRangeAux, if_pos hle, hmin, List.range_succ_eq_map, List.map_cons, List.map_map]
      congr 1
      rw [ih (validYmd_nextDay h), toRD_nextDay h]
      have he : e + 1 - (toRD d + 1) = e - toRD d := by omega
      rw [he]
      rfl
    · rw [dateRangeAux, if_neg hle]
      have h0 : min (n + 1) (e + 1 - toRD d) = 0 := by omega
      simp [h0]

theorem weekdays_filter_eq {s : Ymd} (e : Nat) (hv : validYmd s) :
    List.filter bizDayB (dateRangeAux (e + 1 - toRD s) s e) =
      quarterRange s (e + 1 - toRD s) := by
  rw [dateRangeAux_eq _ _ hv, quarterRange, Nat.min_self]

theorem getWeekdaysInQuarter_ok {q : String} {y : Nat} {qds : List Ymd} (hy : 1 ≤ y)
    (h : getWeekdaysInQuarter q y = .ok qds) :
    ∃ (s : Ymd) (n : Nat), validYmd s ∧ qds = quarterRange s n := by
  by_cases h1 : q = "Q1"
  · subst h1
    have hv : validYmd ⟨y, 4, 1⟩ :=
      validYmd_mk hy (by norm_num) (by norm_num) (by norm_num) (by norm_num [daysInMonth])
    rw [show getWeekdaysInQuarter "Q1" y = .ok (List.filter bizDayB
      (dateRangeAux (toRD (⟨y, 6, 30⟩ : Ymd) + 1 - toRD (⟨y, 4, 1⟩ : Ymd)) ⟨y, 4, 1⟩
        (toRD (⟨y, 6, 30⟩ : Ymd)))) from rfl] at h
    simp only [Except.ok.injEq] at h
    subst h
    exact ⟨⟨y, 4, 1⟩, _, hv, weekdays_filter_eq _ hv⟩
  · by_cases h2 : q = "Q2"
    · subst h2
      have hv : validYmd ⟨y, 7, 1⟩ :=
        validYmd_mk hy (by norm_num) (by norm_num) (by norm_num) (by norm_num [daysInMonth])
      rw [show getWeekdaysInQuarter "Q2" y = .ok (List.filter bizDayB
        (dateRangeAux (toRD (⟨y, 9, 30⟩ : Ymd) + 1 - toRD (⟨y, 7, 1⟩ : Ymd)) ⟨y, 7, 1⟩
          (toRD (⟨y, 9, 30⟩ : Ymd)))) from rfl] at h
      simp only [Except.ok.injEq] at h
      subst h
      exact ⟨⟨y, 7, 1⟩, _, hv, weekdays_filter_eq _ hv⟩
    · by_cases h3 : q = "Q3"
      · subst h3
        have hv : validYmd ⟨y, 10, 1⟩ :=
          validYmd_mk hy (by norm_num) (by norm_num) (by norm_num) (by norm_num [daysInMonth])
        rw [show getWeekdaysInQuarter "Q3" y = .ok (List.filter bizDayB
          (dateRangeAux (toRD (⟨y, 12, 31⟩ : Ymd) + 1 - toRD (⟨y, 10, 1⟩ : Ymd)) ⟨y, 10, 1⟩
            (toRD (⟨y, 12, 31⟩ : Ymd)))) from rfl] at h
        simp only [Except.ok.injEq] at h
        subst h
        exact ⟨⟨y, 10, 1⟩, _, hv, weekdays_filter_eq _ hv⟩
      · by_cases h4 : q = "Q4"
        · subst h4
          have hv : validYmd ⟨y + 1, 1, 1⟩ :=
            validYmd_mk (by omega) (by norm_num) (by norm_num) (by norm_num)
              (by norm_num [daysInMonth])
          rw [show getWeekdaysInQuarter "Q4" y = .ok (List.filter bizDayB
            (dateRangeAux (toRD (⟨y + 1, 3, 31⟩ : Ymd) + 1 - toRD (⟨y + 1, 1, 1⟩ : Ymd))
              ⟨y + 1, 1, 1⟩ (toRD (⟨y + 1, 3, 31⟩ : Ymd)))) from rfl] at h
          simp only [Except.ok.injEq] at h
          subst h
          exact ⟨⟨y + 1, 1, 1⟩, _, hv, weekdays_filter_eq _ hv⟩
        · unfold getWeekdaysInQuarter getAllDatesInQuarter getQuarterDateRange QUARTERS at h
          rw [if_neg h1, if_neg h2, if_neg h3, if_neg h4] at h
          simp [Except.map] at h

theorem mem_quarterRange {s : Ymd} {n : Nat} {x : Ymd} :
    x ∈ quarterRange s n ↔
      ∃ k, k < n ∧ x = addDaysN k s ∧ bizDayB x = true := by
  unfold quarterRange
  simp only [List.mem_filter, List.mem_map, List.mem_range]
  constructor
  · rintro ⟨⟨k, hk, rfl⟩, hb⟩
    exact ⟨k, hk, rfl, hb⟩
  · rintro ⟨k, hk, rfl, hb⟩
    exact ⟨⟨k, hk, rfl⟩, hb⟩

theorem quarterRange_valid {s : Ymd} (hs : validYmd s) {n : Nat} :
    validDates (quarterRange s n) := by
  intro x hx
  obtain ⟨k, _, rfl, _⟩ := mem_quarterRange.mp hx
  exact validYmd_addDaysN k hs

theorem quarterRange_pairwise {s : Ymd} (hs : validYmd s) (n : Nat) :
    (quarterRange s n).Pairwise fun a b => toRD a < toRD b := by
  apply List.Pairwise.sublist (List.filter_sublist _)
  rw [List.pairwise_map]
  apply List.Pairwise.imp ?_ (List.pairwise_lt_range n)
  intro a b hab
  rw [toRD_addDaysN a hs, toRD_addDaysN b hs]
  omega

/-! ## Day-name lemmas -/

theorem DAY_NAMES_findIdx_getD {k : Nat} (hk : k < 7) :
    DAY_NAMES.findIdx (fun s => s == DAY_NAMES.getD k "") = k := by
  interval_cases k <;> rfl

theorem dayNameOf_biz {d : Ymd} (hb : bizDayB d = true) :
    dayNameOf d ≠ "SUNDAY" ∧ dayNameOf d ≠ "SATURDAY" := by
  unfold bizDayB at hb
  have h7 := dayOfWeek_lt d
  unfold dayNameOf
  simp only [Bool.and_eq_true, decide_eq_true_eq] at hb
  interval_cases h : dayOfWeek d <;> simp_all <;> decide

/-! ## `getAvailableTimeSlots` lemmas -/

theorem gats_weekend {d : Ymd} (h : dayOfWeek d = 0 ∨ dayOfWeek d = 6) :
    getAvailableTimeSlots d = [] := by
  unfold getAvailableTimeSlots dayNameOf
  rcases h with h | h <;> rw [h] <;> rfl

theorem gats_noSession {d : Ymd} (h : d ∈ (getSpecialDatesForYear d.year).noSessionDates) :
    getAvailableTimeSlots d = [] := by
  unfold getAvailableTimeSlots
  dsimp only
  split
  · rfl
  · next hw =>
    have ha : (getSpecialDatesForYear d.year).noSessionDates.any (fun x => x == d) = true := by
      rw [List.any_eq_true]
      exact ⟨d, h, by simp⟩
    simp only [ha, if_true]

theorem gats_restricted {d : Ymd} {c : Time} (hb : bizDayB d = true)
    (hmem : (d, c) ∈ (getSpecialDatesForYear d.year).restrictedDates)
    (hno : d ∉ (getSpecialDatesForYear d.year).noSessionDates) :
    getAvailableTimeSlots d =
      ((WEEKLY_SCHEDULE (dayNameOf d)).getD []).filter
        (fun slot => decide (hhmm slot.start < hhmm c)) := by
  obtain ⟨hsu, hsa⟩ := dayNameOf_biz hb
  unfold getAvailableTimeSlots
  dsimp only
  rw [if_neg (by simp [hsu, hsa])]
  have ha : (getSpecialDatesForYear d.year).noSessionDates.any (fun x => x == d) = false := by
    rw [List.any_eq_false]
    intro x hx
    simp only [beq_iff_eq]
    intro he
    exact hno (he ▸ hx)
  rw [ha, if_neg (by simp)]
  have hf : (getSpecialDatesForYear d.year).restrictedDates.find? (fun r => r.1 == d) =
      some (d, c) := by
    obtain ⟨dy, dm, dd⟩ := d
    simp only [getSpecialDatesForYear, List.mem_cons, List.not_mem_nil, or_false,
      Prod.mk.injEq, Ymd.mk.injEq, true_and] at hmem
    simp only [getSpecialDatesForYear]
    rcases hmem with ⟨⟨hm, hd⟩, hc⟩ | ⟨⟨hm, hd⟩, hc⟩ | ⟨⟨hm, hd⟩, hc⟩ | ⟨⟨hm, hd⟩, hc⟩ |
      ⟨⟨hm, hd⟩, hc⟩ <;> subst hm <;> subst hd <;> subst hc
    · rw [List.find?_cons_of_pos _ (by simp)]
    · rw [List.find?_cons_of_neg _ (by simp [Ymd.mk.injEq]),
        List.find?_cons_of_pos _ (by simp)]
    · rw [List.find?_cons_of_neg _ (by simp [Ymd.mk.injEq]),
        List.find?_cons_of_neg _ (by simp [Ymd.mk.injEq]),
        List.find?_cons_of_pos _ (by simp)]
    · rw [List.find?_cons_of_neg _ (by simp [Ymd.mk.injEq]),
        List.find?_cons_of_neg _ (by simp [Ymd.mk.injEq]),
        List.find?_cons_of_neg _ (by simp [Ymd.mk.injEq]),
        List.find?_cons_of_pos _ (by simp)]
    · rw [List.find?_cons_of_neg _ (by simp [Ymd.mk.injEq]),
        List.find?_cons_of_neg _ (by simp [Ymd.mk.injEq]),
        List.find?_cons_of_neg _ (by simp [Ymd.mk.injEq]),
        List.find?_cons_of_neg _ (by simp [Ymd.mk.injEq]),
        List.find?_cons_of_pos _ (by simp)]
  rw [hf]

theorem template_starts_nodup (name : String) :
    (((WEEKLY_SCHEDULE name).getD []).map (·.start)).Nodup := by
  unfold WEEKLY_SCHEDULE
  split_ifs <;> decide

theorem template_minute_lt (name : String) :
    ∀ s ∈ (WEEKLY_SCHEDULE name).getD [], s.start.m < 60 := by
  unfold WEEKLY_SCHEDULE
  split_ifs <;> decide

theorem gats_sublist (d : Ymd) :
    (getAvailableTimeSlots d).Sublist ((WEEKLY_SCHEDULE (dayNameOf d)).getD []) := by
  unfold getAvailableTimeSlots
  dsimp only
  split
  · exact List.nil_sublist _
  · split
    · exact List.nil_sublist _
    · split
      · exact List.filter_sublist _
      · exact List.Sublist.refl _

theorem gats_starts_nodup (d : Ymd) :
    ((getAvailableTimeSlots d).map (·.start)).Nodup :=
  ((template_starts_nodup (dayNameOf d)).sublist ((gats_sublist d).map _))

theorem gats_minute_lt (d : Ymd) :
    ∀ s ∈ getAvailableTimeSlots d, s.start.m < 60 :=
  fun s hs => template_minute_lt (dayNameOf d) s ((gats_sublist d).subset hs)

/-! ## Generic first-match lemmas -/

theorem find?_first {α : Type} {r : α → α → Prop} {l : List α} {p : α → Bool} {x : α}
    (hpw : l.Pairwise r) (hx : x ∈ l) (hpx : p x = true)
    (hbefore : ∀ y ∈ l, r y x → p y = false) : l.find? p = some x := by
  induction l with
  | nil => cases hx
  | cons a t ih =>
    rcases List.mem_cons.mp hx with rfl | hxt
    · rw [List.find?_cons_of_pos _ hpx]
    · have hra : r a x := (List.pairwise_cons.mp hpw).1 x hxt
      have hpa : p a = false := hbefore a (List.mem_cons_self a t) hra
      rw [List.find?_cons_of_neg _ (by simp [hpa])]
      exact ih (List.pairwise_cons.mp hpw).2 hxt
        fun y hy hr => hbefore y (List.mem_cons_of_mem _ hy) hr

theorem find?_decomp {α : Type} {l : List α} {p : α → Bool} {x : α}
    (h : l.find? p = some x) :
    ∃ pre post, l = pre ++ x :: post ∧ (∀ y ∈ pre, p y = false) ∧ p x = true := by
  induction l with
  | nil => simp [List.find?] at h
  | cons a t ih =>
    by_cases hpa : p a = true
    · rw [List.find?_cons_of_pos _ hpa] at h
      cases h
      exact ⟨[], t, rfl, by simp, hpa⟩
    · rw [List.find?_cons_of_neg _ (by simpa using hpa)] at h
      obtain ⟨pre, post, rfl, hpre, hx⟩ := ih h
      exact ⟨a :: pre, post, rfl, by
        intro y hy
        rcases List.mem_cons.mp hy with rfl | hy
        · simpa using hpa
        · exact hpre y hy, hx⟩

/-! ## `findNextAvailableDate` lemmas -/

theorem findNext_mem {fromDate : Ymd} {w : String} {qds : List Ymd} {x : Ymd}
    (h : findNextAvailableDate fromDate w qds = some x) :
    x ∈ qds ∧ toRD fromDate ≤ toRD x := by
  unfold findNextAvailableDate at h
  refine ⟨List.mem_of_find?_eq_some h, ?_⟩
  have hp := List.find?_some h
  simp only [Bool.and_eq_true, decide_eq_true_eq] at hp
  exact hp.1

theorem dayOfWeek_addDaysN (k : Nat) {d : Ymd} (h : validYmd d) :
    dayOfWeek (addDaysN k d) = (toRD d + k) % 7 := by
  rw [dayOfWeek, toRD_addDaysN k h]

theorem bizDayB_mod {s : Ymd} (hs : validYmd s) {i j : Nat}
    (hmod : (toRD s + i) % 7 = (toRD s + j) % 7) :
    bizDayB (addDaysN i s) = bizDayB (addDaysN j s) := by
  unfold bizDayB
  rw [dayOfWeek_addDaysN i hs, dayOfWeek_addDaysN j hs, hmod]

theorem findNext_pos {s : Ymd} (hs : validYmd s) {n i j : Nat} (hj : j < n)
    (hmod : (toRD s + j) % 7 = (toRD s + i) % 7)
    (hbiz : bizDayB (addDaysN i s) = true) :
    findNextAvailableDate (addDaysN j s) (dayNameOf (addDaysN i s)) (quarterRange s n) =
      some (addDaysN j s) := by
  unfold findNextAvailableDate
  have hidx : DAY_NAMES.findIdx (fun x => x == dayNameOf (addDaysN i s)) =
      dayOfWeek (addDaysN i s) := DAY_NAMES_findIdx_getD (dayOfWeek_lt _)
  apply find?_first (quarterRange_pairwise hs n)
  · exact mem_quarterRange.mpr ⟨j, hj, rfl, by rw [bizDayB_mod hs hmod]; exact hbiz⟩
  · simp only [hidx, Bool.and_eq_true, decide_eq_true_eq, beq_iff_eq]
    exact ⟨le_refl _, by rw [dayOfWeek_addDaysN j hs, dayOfWeek_addDaysN i hs, hmod]⟩
  · intro y hy hr
    obtain ⟨k, hk, rfl, hb⟩ := mem_quarterRange.mp hy
    simp only [Bool.and_eq_false_iff, decide_eq_false_iff_not, not_le]
    left
    exact hr

theorem findNext_none {s : Ymd} (hs : validYmd s) {n : Nat} (j : Nat) (hj : n ≤ j)
    (w : String) :
    findNextAvailableDate (addDaysN j s) w (quarterRange s n) = none := by
  unfold findNextAvailableDate
  rw [List.find?_eq_none]
  intro y hy
  obtain ⟨k, hk, rfl, hb⟩ := mem_quarterRange.mp hy
  simp only [Bool.and_eq_true, decide_eq_true_eq, not_and]
  intro hle
  rw [toRD_addDaysN j hs, toRD_addDaysN k hs] at hle
  omega

/-! ## Grid surgery lemmas -/

theorem modDay_date_map (grid : Grid) (d : Ymd) (f : List GridSlot → List GridSlot) :
    (modDay grid d f).map (·.date) = grid.map (·.date) := by
  unfold modDay
  rw [List.map_map]
  apply List.map_congr_left
  intro day _
  show (if day.date == d then { day with slots := f day.slots } else day).date = day.date
  split <;> rfl

theorem map_if_date_eq_self {l : Grid} {d : Ymd} {f : List GridSlot → List GridSlot}
    (h : ∀ x ∈ l, x.date ≠ d) :
    (l.map fun day => if day.date == d then { day with slots := f day.slots } else day) = l := by
  induction l with
  | nil => rfl
  | cons a rest ih =>
    rw [List.map_cons,
      if_neg (by simp only [beq_iff_eq]; exact h a (List.mem_cons_self a rest)),
      ih fun x hx => h x (List.mem_cons_of_mem _ hx)]

theorem modDay_append {pre : Grid} {day : DayData} {post : Grid} {d : Ymd}
    (f : List GridSlot → List GridSlot)
    (hpre : ∀ x ∈ pre, x.date ≠ d) (hpost : ∀ x ∈ post, x.date ≠ d) (hd : day.date = d) :
    modDay (pre ++ day :: post) d f =
      pre ++ { day with slots := f day.slots } :: post := by
  unfold modDay
  rw [List.map_append, List.map_cons, map_if_date_eq_self hpre, map_if_date_eq_self hpost,
    if_pos (by simp [beq_iff_eq, hd])]

theorem releaseAt_no_match {slots : List GridSlot} {t : Time}
    (h : ∀ x ∈ slots, x.start ≠ t) : releaseAt slots t = slots := by
  induction slots with
  | nil => rfl
  | cons a rest ih =>
    rw [releaseAt, if_neg (by simp [beq_iff_eq, h a (List.mem_cons_self a rest)])]
    rw [ih fun x hx => h x (List.mem_cons_of_mem _ hx)]

theorem releaseAt_first {pre : List GridSlot} {s : GridSlot} {post : List GridSlot} {t : Time}
    (hpre : ∀ x ∈ pre, x.start ≠ t) (hs : s.start = t) :
    releaseAt (pre ++ s :: post) t =
      pre ++ { s with available := true, session := none } :: post := by
  induction pre with
  | nil =>
    simp only [List.nil_append]
    rw [releaseAt, if_pos (by simp [beq_iff_eq, hs])]
  | cons a rest ih =>
    simp only [List.cons_append]
    rw [releaseAt, if_neg (by simp [beq_iff_eq, hpre a (List.mem_cons_self a rest)])]
    rw [ih fun x hx => hpre x (List.mem_cons_of_mem _ hx)]

theorem bookAt_some {slots : List GridSlot} {t : Time} {c : String} {n : Nat}
    {slots' : List GridSlot} (h : bookAt slots t c n = some slots') :
    ∃ pre s post, slots = pre ++ s :: post ∧
      (∀ x ∈ pre, ¬(x.start = t ∧ x.available = true)) ∧
      s.start = t ∧ s.available = true ∧
      slots' = pre ++ { s with available := false, session := some ⟨c, n⟩ } :: post := by
  induction slots generalizing slots' with
  | nil => simp [bookAt] at h
  | cons a rest ih =>
    rw [bookAt] at h
    by_cases hc : (a.start == t && a.available) = true
    · rw [if_pos hc] at h
      simp only [Bool.and_eq_true, beq_iff_eq] at hc
      cases h
      exact ⟨[], a, rest, rfl, by simp, hc.1, hc.2, rfl⟩
    · rw [if_neg hc] at h
      simp only [Option.map_eq_some'] at h
      obtain ⟨v, hv, rfl⟩ := h
      obtain ⟨pre, s, post, rfl, hpre, hs, ha, rfl⟩ := ih hv
      refine ⟨a :: pre, s, post, rfl, ?_, hs, ha, rfl⟩
      intro x hx
      rcases List.mem_cons.mp hx with rfl | hx
      · simpa [beq_iff_eq] using hc
      · exact hpre x hx

theorem bookAt_none {slots : List GridSlot} {t : Time} {c : String} {n : Nat}
    (h : bookAt slots t c n = none) :
    ∀ x ∈ slots, ¬(x.start = t ∧ x.available = true) := by
  induction slots with
  | nil => simp
  | cons a rest ih =>
    rw [bookAt] at h
    by_cases hc : (a.start == t && a.available) = true
    · rw [if_pos hc] at h; cases h
    · rw [if_neg hc] at h
      simp only [Option.map_eq_none'] at h
      intro x hx
      rcases List.mem_cons.mp hx with rfl | hx
      · simpa [beq_iff_eq] using hc
      · exact ih h x hx

theorem find?_date_decomp {g : Grid} {d : Ymd} {day : DayData}
    (hnd : (g.map (·.date)).Nodup)
    (h : g.find? (fun x => x.date == d) = some day) :
    ∃ pre post, g = pre ++ day :: post ∧ day.date = d ∧
      (∀ x ∈ pre, x.date ≠ d) ∧ (∀ x ∈ post, x.date ≠ d) := by
  obtain ⟨pre, post, rfl, hpre, hd⟩ := find?_decomp h
  simp only [beq_iff_eq] at hd
  refine ⟨pre, post, rfl, hd, ?_, ?_⟩
  · intro x hx
    have := hpre x hx
    simpa [beq_eq_false_iff_ne] using this
  · intro x hx hxd
    rw [List.map_append, List.map_cons] at hnd
    have hnd2 := (List.nodup_append.mp hnd).2.1
    rw [List.nodup_cons] at hnd2
    exact hnd2.1 (by rw [hd, ← hxd]; exact List.mem_map_of_mem _ hx)

theorem rollbackSessions_append (xs ys : List SessionRec) (g : Grid) :
    rollbackSessions (xs ++ ys) g = rollbackSessions ys (rollbackSessions xs g) := by
  simp [rollbackSessions, List.foldl_append]

theorem rollbackSessions_cons (x : SessionRec) (xs : List SessionRec) (g : Grid) :
    rollbackSessions (x :: xs) g =
      rollbackSessions xs (modDay g x.date fun sl => releaseAt sl x.startTime) := rfl

theorem rollbackSessions_one (x : SessionRec) (g : Grid) :
    rollbackSessions [x] g = modDay g x.date fun sl => releaseAt sl x.startTime := rfl

theorem modDay_comm {g : Grid} {d e : Ymd} {f fe : List GridSlot → List GridSlot}
    (hne : d ≠ e) :
    modDay (modDay g d f) e fe = modDay (modDay g e fe) d f := by
  unfold modDay
  rw [List.map_map, List.map_map]
  apply List.map_congr_left
  intro day _
  simp only [Function.comp]
  by_cases hd : day.date = d
  · by_cases he : day.date = e
    · exact absurd (hd.symm.trans he) hne
    · simp [hd, he, hne, Ne.symm hne]
  · by_cases he : day.date = e
    · simp [hd, he, hne, Ne.symm hne]
    · simp [hd, he]

theorem modDay_modDay_same (g : Grid) (d : Ymd) (f fe : List GridSlot → List GridSlot) :
    modDay (modDay g d f) d fe = modDay g d fun sl => fe (f sl) := by
  unfold modDay
  rw [List.map_map]
  apply List.map_congr_left
  intro day _
  simp only [Function.comp]
  by_cases hd : day.date = d
  · simp [hd]
  · simp [hd]

theorem find?_modDay_ne {g : Grid} {d e : Ymd} {f : List GridSlot → List GridSlot}
    (hne : e ≠ d) :
    (modDay g d f).find? (fun x => x.date == e) = g.find? (fun x => x.date == e) := by
  induction g with
  | nil => rfl
  | cons a rest ih =>
    unfold modDay at ih ⊢
    rw [List.map_cons]
    by_cases hae : a.date = e
    · have had : ¬ a.date = d := fun hc => hne (hae ▸ hc ▸ rfl)
      rw [List.find?_cons_of_pos _ (by simp [had, hae, hne]),
        List.find?_cons_of_pos _ (by simp [hae])]
      simp [had]
    · by_cases had : a.date = d
      · rw [List.find?_cons_of_neg _ (by simp [had, hae, Ne.symm hne]),
          List.find?_cons_of_neg _ (by simp [hae])]
        exact ih
      · rw [List.find?_cons_of_neg _ (by simp [had, hae]),
          List.find?_cons_of_neg _ (by simp [hae])]
        exact ih

theorem rollback_modDay_comm {acc : List SessionRec} {g : Grid} {d : Ymd}
    {f : List GridSlot → List GridSlot} (h : ∀ a ∈ acc, a.date ≠ d) :
    rollbackSessions acc (modDay g d f) = modDay (rollbackSessions acc g) d f := by
  induction acc generalizing g with
  | nil => rfl
  | cons a rest ih =>
    rw [rollbackSessions_cons, rollbackSessions_cons,
      modDay_comm (h a (List.mem_cons_self a rest)).symm,
      ih fun x hx => h x (List.mem_cons_of_mem _ hx)]

theorem find?_rollback_ne {acc : List SessionRec} {g : Grid} {d : Ymd}
    (h : ∀ a ∈ acc, a.date ≠ d) :
    (rollbackSessions acc g).find? (fun x => x.date == d) =
      g.find? (fun x => x.date == d) := by
  induction acc generalizing g with
  | nil => rfl
  | cons a rest ih =>
    rw [rollbackSessions_cons, ih fun x hx => h x (List.mem_cons_of_mem _ hx),
      find?_modDay_ne (h a (List.mem_cons_self a rest)).symm]

theorem modDay_id {g : Grid} {d : Ymd} {day : DayData}
    (hnd : (g.map (·.date)).Nodup)
    (hfind : g.find? (fun x => x.date == d) = some day)
    {f : List GridSlot → List GridSlot} (hf : f day.slots = day.slots) :
    modDay g d f = g := by
  obtain ⟨pre, post, rfl, hd, hpre, hpost⟩ := find?_date_decomp hnd hfind
  rw [modDay_append f hpre hpost hd, hf]

theorem setDaySlots_eq_modDay (g : Grid) (d : Ymd) (slots' : List GridSlot) :
    setDaySlots g d slots' = modDay g d fun _ => slots' := rfl

theorem WF_starts_map {g : Grid} (hwf : WFgrid g) {day : DayData} (hday : day ∈ g) :
    day.slots.map (·.start) = (getAvailableTimeSlots day.date).map (·.start) := by
  have h := hwf.2.1 day hday
  have := congrArg (List.map Prod.fst) h
  simpa [List.map_map, Function.comp] using this

theorem WF_starts_nodup {g : Grid} (hwf : WFgrid g) {day : DayData} (hday : day ∈ g) :
    (day.slots.map (·.start)).Nodup := by
  rw [WF_starts_map hwf hday]
  exact gats_starts_nodup day.date

theorem WF_minute_lt {g : Grid} (hwf : WFgrid g) {day : DayData} (hday : day ∈ g)
    {s : GridSlot} (hs : s ∈ day.slots) : s.start.m < 60 := by
  have hmap := WF_starts_map hwf hday
  have hmem : s.start ∈ (getAvailableTimeSlots day.date).map (·.start) := by
    rw [← hmap]
    exact List.mem_map_of_mem _ hs
  obtain ⟨ts, hts, hte⟩ := List.mem_map.mp hmem
  have := gats_minute_lt day.date ts hts
  rw [hte] at this
  exact this

theorem findNext_dayName {fromDate : Ymd} {w : String} {qds : List Ymd} {x : Ymd}
    (hw : ∃ k, k < 7 ∧ w = DAY_NAMES.getD k "")
    (h : findNextAvailableDate fromDate w qds = some x) : dayNameOf x = w := by
  obtain ⟨k, hk, rfl⟩ := hw
  unfold findNextAvailableDate at h
  have hp := List.find?_some h
  rw [DAY_NAMES_findIdx_getD hk] at hp
  simp only [Bool.and_eq_true, beq_iff_eq] at hp
  rw [dayNameOf, hp.2]

/-! ## `findSuitableSlot` lemmas -/

theorem findSuitableSlotLoop_cons_none (isFI : Bool) (w : String)
    (a : GridSlot) (rest : List GridSlot) :
    findSuitableSlotLoop isFI w none (a :: rest) =
      if a.available = false then findSuitableSlotLoop isFI w none rest
      else if (isFI && !isValidForFinancialIntelligence w a.start) = true then
        findSuitableSlotLoop isFI w none rest
      else some ⟨w, a.start, a.endT⟩ := rfl

theorem findSuitableSlotLoop_cons_some (isFI : Bool) (w : String) (last : HistEntry)
    (a : GridSlot) (rest : List GridSlot) :
    findSuitableSlotLoop isFI w (some last) (a :: rest) =
      if a.available = false then findSuitableSlotLoop isFI w (some last) rest
      else if (isFI && !isValidForFinancialIntelligence w a.start) = true then
        findSuitableSlotLoop isFI w (some last) rest
      else if (!isFI && w == last.dayOfWeek) = true then
        findSuitableSlotLoop isFI w (some last) rest
      else if getTimeDifferenceInHours a.start last.startTime < 3 then
        findSuitableSlotLoop isFI w (some last) rest
      else some ⟨w, a.start, a.endT⟩ := rfl

theorem findSuitableSlotLoop_some {isFI : Bool} {w : String} {lasto : Option HistEntry}
    {slots : List GridSlot} {su : SuitableSlot}
    (h : findSuitableSlotLoop isFI w lasto slots = some su) :
    ∃ slot ∈ slots, slot.available = true ∧ su = ⟨w, slot.start, slot.endT⟩ ∧
      (isFI = true → isValidForFinancialIntelligence w slot.start = true) ∧
      ∀ last, lasto = some last →
        ((isFI = false → w ≠ last.dayOfWeek) ∧
          ¬ getTimeDifferenceInHours slot.start last.startTime < 3) := by
  induction slots with
  | nil => simp [findSuitableSlotLoop] at h
  | cons a rest ih =>
    cases lasto with
    | none =>
      rw [findSuitableSlotLoop_cons_none] at h
      by_cases h1 : a.available = false
      · rw [if_pos h1] at h
        obtain ⟨slot, hm, hrest⟩ := ih h
        exact ⟨slot, List.mem_cons_of_mem _ hm, hrest⟩
      · rw [if_neg h1] at h
        have h1' : a.available = true := by revert h1; cases a.available <;> simp
        by_cases h2 : (isFI && !isValidForFinancialIntelligence w a.start) = true
        · rw [if_pos h2] at h
          obtain ⟨slot, hm, hrest⟩ := ih h
          exact ⟨slot, List.mem_cons_of_mem _ hm, hrest⟩
        · rw [if_neg h2] at h
          simp only [Bool.and_eq_true, Bool.not_eq_true'] at h2
          cases h
          refine ⟨a, List.mem_cons_self a rest, h1', rfl, ?_, by simp⟩
          intro hfi
          cases hb : isValidForFinancialIntelligence w a.start
          · exact absurd ⟨hfi, hb⟩ h2
          · rfl
    | some last =>
      rw [findSuitableSlotLoop_cons_some] at h
      by_cases h1 : a.available = false
      · rw [if_pos h1] at h
        obtain ⟨slot, hm, hrest⟩ := ih h
        exact ⟨slot, List.mem_cons_of_mem _ hm, hrest⟩
      · rw [if_neg h1] at h
        have h1' : a.available = true := by revert h1; cases a.available <;> simp
        by_cases h2 : (isFI && !isValidForFinancialIntelligence w a.start) = true
        · rw [if_pos h2] at h
          obtain ⟨slot, hm, hrest⟩ := ih h
          exact ⟨slot, List.mem_cons_of_mem _ hm, hrest⟩
        · rw [if_neg h2] at h
          simp only [Bool.and_eq_true, Bool.not_eq_true'] at h2
          have hfiv : isFI = true → isValidForFinancialIntelligence w a.start = true := by
            intro hfi
            cases hb : isValidForFinancialIntelligence w a.start
            · exact absurd ⟨hfi, hb⟩ h2
            · rfl
          by_cases h3 : (!isFI && w == last.dayOfWeek) = true
          · rw [if_pos h3] at h
            obtain ⟨slot, hm, hrest⟩ := ih h
            exact ⟨slot, List.mem_cons_of_mem _ hm, hrest⟩
          · rw [if_neg h3] at h
            by_cases h4 : getTimeDifferenceInHours a.start last.startTime < 3
            · rw [if_pos h4] at h
              obtain ⟨slot, hm, hrest⟩ := ih h
              exact ⟨slot, List.mem_cons_of_mem _ hm, hrest⟩
            · rw [if_neg h4] at h
              cases h
              refine ⟨a, List.mem_cons_self a rest, h1', rfl, hfiv, ?_⟩
              intro last' hl
              cases hl
              refine ⟨?_, h4⟩
              intro hnfi hweq
              apply h3
              simp [hnfi, hweq]

theorem findSuitableSlot_some {date : Ymd} {course : Course} {grid : Grid}
    {history : List HistEntry} {isFI : Bool} {su : SuitableSlot}
    (h : findSuitableSlot date course grid history isFI = some su) :
    ∃ dayData, grid.find? (fun day => day.date == date) = some dayData ∧
      ∃ slot ∈ dayData.slots, slot.available = true ∧
        su = ⟨dayNameOf date, slot.start, slot.endT⟩ ∧
        (isFI = true → isValidForFinancialIntelligence (dayNameOf date) slot.start = true) ∧
        ∀ last, history.getLast? = some last →
          ((isFI = false → dayNameOf date ≠ last.dayOfWeek) ∧
            ¬ getTimeDifferenceInHours slot.start last.startTime < 3) := by
  unfold findSuitableSlot at h
  cases hf : grid.find? (fun day => day.date == date) with
  | none => rw [hf] at h; cases h
  | some dayData =>
    rw [hf] at h
    exact ⟨dayData, rfl, findSuitableSlotLoop_some h⟩

theorem timeDiff_lt_three {t1 t2 : Time} (ha : 10 ≤ t1.h) (hb : t1.h < 13) (hc : t1.m < 60)
    (hd : 10 ≤ t2.h) (he : t2.h < 13) (hf : t2.m < 60) :
    getTimeDifferenceInHours t1 t2 < 3 := by
  unfold getTimeDifferenceInHours
  rw [div_lt_iff (by norm_num : (0:ℚ) < 60), show (3:ℚ) * 60 = 180 by norm_num, abs_lt]
  have c1 : (10:ℚ) ≤ (t1.h : ℚ) := by exact_mod_cast ha
  have c2 : (t1.h : ℚ) ≤ 12 := by exact_mod_cast Nat.lt_succ_iff.mp hb
  have c3 : (t1.m : ℚ) ≤ 59 := by exact_mod_cast Nat.lt_succ_iff.mp hc
  have c4 : (10:ℚ) ≤ (t2.h : ℚ) := by exact_mod_cast hd
  have c5 : (t2.h : ℚ) ≤ 12 := by exact_mod_cast Nat.lt_succ_iff.mp he
  have c6 : (t2.m : ℚ) ≤ 59 := by exact_mod_cast Nat.lt_succ_iff.mp hf
  have c7 : (0:ℚ) ≤ (t1.m : ℚ) := by positivity
  have c8 : (0:ℚ) ≤ (t2.m : ℚ) := by positivity
  constructor <;> nlinarith

theorem findSuitableSlotLoop_fi_none {w : String} {last : HistEntry}
    (hh1 : 10 ≤ last.startTime.h) (hh2 : last.startTime.h < 13) (hh3 : last.startTime.m < 60)
    {slots : List GridSlot} (hm : ∀ s ∈ slots, s.start.m < 60) :
    findSuitableSlotLoop true w (some last) slots = none := by
  induction slots with
  | nil => rfl
  | cons a rest ih =>
    have ihr := ih fun s hs => hm s (List.mem_cons_of_mem _ hs)
    rw [findSuitableSlotLoop]
    by_cases h1 : a.available = false
    · rw [if_pos h1]; exact ihr
    · rw [if_neg h1]
      by_cases h2 : (true && !isValidForFinancialIntelligence w a.start) = true
      · rw [if_pos h2]; exact ihr
      · rw [if_neg h2]
        simp only [Bool.true_and, Bool.not_eq_true'] at h2
        have hv : isValidForFinancialIntelligence w a.start = true := by
          revert h2; cases isValidForFinancialIntelligence w a.start <;> simp
        have hhr : 10 ≤ a.start.h ∧ a.start.h < 13 := by
          unfold isValidForFinancialIntelligence at hv
          split at hv
          · cases hv
          · simpa [Bool.and_eq_true, decide_eq_true_eq] using hv
        rw [if_neg (by simp), if_pos (timeDiff_lt_three hhr.1 hhr.2
          (hm a (List.mem_cons_self a rest)) hh1 hh2 hh3)]
        exact ihr

/-! ## Occupancy counting -/

theorem occCount_append (xs ys : List SessionRec) (d : Ymd) (t : Time) :
    occCount (xs ++ ys) d t = occCount xs d t + occCount ys d t := by
  unfold occCount
  exact List.countP_append _ _ _

theorem occCount_nil (d : Ymd) (t : Time) : occCount [] d t = 0 := rfl

theorem occCount_one_match {x : SessionRec} {d : Ymd} {t : Time}
    (hd : x.date = d) (ht : x.startTime = t) : occCount [x] d t = 1 := by
  unfold occCount
  simp [List.countP_cons, hd, ht]

theorem occCount_one_miss {x : SessionRec} {d : Ymd} {t : Time}
    (h : ¬(x.date = d ∧ x.startTime = t)) : occCount [x] d t = 0 := by
  unfold occCount
  rw [List.countP_cons]
  simp only [List.countP_nil]
  by_cases hd : x.date = d
  · by_cases ht : x.startTime = t
    · exact absurd ⟨hd, ht⟩ h
    · simp [ht]
  · simp [hd]

/-! ## The booking step -/

theorem book_step {g : Grid} {d : Ymd} {dayData : DayData} {t : Time} {c : String} {n : Nat}
    {slots' : List GridSlot}
    (hwf : WFgrid g)
    (hfind : g.find? (fun x => x.date == d) = some dayData)
    (hbook : bookAt dayData.slots t c n = some slots') :
    ∃ pre post s spre spost,
      g = pre ++ dayData :: post ∧ dayData.date = d ∧
      (∀ x ∈ pre, x.date ≠ d) ∧ (∀ x ∈ post, x.date ≠ d) ∧
      dayData.slots = spre ++ s :: spost ∧ s.start = t ∧ s.available = true ∧
      s.session = none ∧
      (∀ x ∈ spre, x.start ≠ t) ∧ (∀ x ∈ spost, x.start ≠ t) ∧
      slots' = spre ++ { s with available := false, session := some ⟨c, n⟩ } :: spost ∧
      slots'.map (fun x => (x.start, x.endT)) = dayData.slots.map (fun x => (x.start, x.endT)) ∧
      releaseAt slots' t = dayData.slots ∧
      setDaySlots g d slots' = pre ++ { dayData with slots := slots' } :: post ∧
      WFgrid (setDaySlots g d slots') := by
  obtain ⟨pre, post, hg, hdd, hpre, hpost⟩ := find?_date_decomp hwf.1 hfind
  obtain ⟨spre, s, spost, hsl, hspre, hst, hav, hsl'⟩ := bookAt_some hbook
  have hdmem : dayData ∈ g := by rw [hg]; exact List.mem_append_right _ (List.mem_cons_self _ _)
  have hnd := WF_starts_nodup hwf hdmem
  have hsess : s.session = none :=
    hwf.2.2 dayData hdmem s
      (by rw [hsl]; exact List.mem_append_right _ (List.mem_cons_self _ _)) hav
  rw [hsl, List.map_append, List.map_cons] at hnd
  have hndparts : ∀ x ∈ spre, x.start ≠ t := by
    intro x hx hxt
    have h2 := (List.nodup_append.mp hnd).2.2
    refine h2 (List.mem_map_of_mem (fun z : GridSlot => z.start) hx) ?_
    show x.start ∈ s.start :: List.map (fun z => z.start) spost
    rw [hxt, ← hst]
    exact List.mem_cons_self _ _
  have hndpost : ∀ x ∈ spost, x.start ≠ t := by
    intro x hx hxt
    have h2 := (List.nodup_append.mp hnd).2.1
    rw [List.nodup_cons] at h2
    refine h2.1 ?_
    rw [hst, ← hxt]
    exact List.mem_map_of_mem (fun z : GridSlot => z.start) hx
  have hshape : slots'.map (fun x => (x.start, x.endT)) =
      dayData.slots.map (fun x => (x.start, x.endT)) := by
    rw [hsl, hsl']
    simp
  have hrel : releaseAt slots' t = dayData.slots := by
    rw [hsl', releaseAt_first hndparts (by simpa using hst), hsl]
    congr 1
    congr 1
    cases s
    simp_all
  have hset : setDaySlots g d slots' = pre ++ { dayData with slots := slots' } :: post := by
    rw [setDaySlots_eq_modDay, hg, modDay_append _ hpre hpost hdd]
  have hwf' : WFgrid (setDaySlots g d slots') := by
    rw [hset]
    refine ⟨?_, ?_, ?_⟩
    · have : (pre ++ { dayData with slots := slots' } :: post).map (·.date) =
          (pre ++ dayData :: post).map (·.date) := by simp
      rw [this, ← hg]
      exact hwf.1
    · intro day hday
      rcases List.mem_append.mp hday with hl | hr
      · exact hwf.2.1 day (by rw [hg]; exact List.mem_append_left _ hl)
      · rcases List.mem_cons.mp hr with rfl | hx
        · show slots'.map _ = _
          rw [hshape]
          exact hwf.2.1 dayData hdmem
        · exact hwf.2.1 day
            (by rw [hg]; exact List.mem_append_right _ (List.mem_cons_of_mem _ hx))
    · intro day hday sl hsl2
      rcases List.mem_append.mp hday with hl | hr
      · exact hwf.2.2 day (by rw [hg]; exact List.mem_append_left _ hl) sl hsl2
      · rcases List.mem_cons.mp hr with rfl | hx
        · simp only [hsl'] at hsl2
          rcases List.mem_append.mp hsl2 with h1 | h2
          · exact hwf.2.2 dayData hdmem sl
              (by rw [hsl]; exact List.mem_append_left _ h1)
          · rcases List.mem_cons.mp h2 with rfl | h3
            · intro hcon; cases hcon
            · exact hwf.2.2 dayData hdmem sl
                (by rw [hsl]; exact List.mem_append_right _ (List.mem_cons_of_mem _ h3))
        · exact hwf.2.2 day
            (by rw [hg]; exact List.mem_append_right _ (List.mem_cons_of_mem _ hx)) sl hsl2
  exact ⟨pre, post, s, spre, spost, hg, hdd, hpre, hpost, hsl, hst, hav, hsess,
    hndparts, hndpost, hsl', hshape, hrel, hset, hwf'⟩

/-! ## The multi-week booking loop -/

theorem sessionsLoop_spec
    (course : Course) (suitableSlot : SuitableSlot) (qds : List Ymd)
    (hqv : validDates qds)
    (outer : List SessionRec) (g₀ : Grid)
    (hcore₀ : CoreInv g₀ outer)
    (hsdw : ∃ k, k < 7 ∧ suitableSlot.dayOfWeek = DAY_NAMES.getD k "")
    (hsufi : isFinancialIntelligenceTitle course.title = true →
      isValidForFinancialIntelligence suitableSlot.dayOfWeek suitableSlot.startTime = true)
    (remaining : Nat) :
    ∀ (sessionNum : Nat) (currentDate : Ymd) (acc : List SessionRec) (g : Grid)
      (ss : List SessionRec) (g' : Grid),
      rollbackSessions acc g = g₀ →
      (∀ a ∈ acc, toRD a.date < toRD currentDate) →
      CoreInv g (outer ++ acc) →
      (∀ a ∈ acc, a.courseName = course.title ∧ a.startTime = suitableSlot.startTime ∧
        a.endTime = suitableSlot.endTime) →
      acc.map (·.sessionNumber) = List.range' 1 acc.length →
      sessionNum = acc.length + 1 →
      g.map (·.date) = g₀.map (·.date) →
      sessionsLoop course suitableSlot qds remaining sessionNum currentDate acc g = (ss, g') →
      ((ss = [] → g' = g₀) ∧
        CoreInv g' (outer ++ ss) ∧
        g'.map (·.date) = g₀.map (·.date) ∧
        (∀ a ∈ ss, a.courseName = course.title ∧ a.startTime = suitableSlot.startTime ∧
          a.endTime = suitableSlot.endTime) ∧
        ss.map (·.sessionNumber) = List.range' 1 ss.length ∧
        (ss ≠ [] → ss.length = acc.length + remaining)) := by
  induction remaining with
  | zero =>
    intro sessionNum currentDate acc g ss g' hroll hdates hcore hfields hnums hsn hgd h
    rw [show sessionsLoop course suitableSlot qds 0 sessionNum currentDate acc g =
      (acc, g) from rfl] at h
    cases h
    refine ⟨?_, hcore, hgd, hfields, hnums, fun _ => by omega⟩
    intro hem
    rw [hem] at hroll
    exact hroll
  | succ rem ih =>
    intro sessionNum currentDate acc g ss g' hroll hdates hcore hfields hnums hsn hgd h
    have hfail : ((([] : List SessionRec) = [] → rollbackSessions acc g = g₀) ∧
        CoreInv (rollbackSessions acc g) (outer ++ ([] : List SessionRec)) ∧
        (rollbackSessions acc g).map (·.date) = g₀.map (·.date) ∧
        (∀ a ∈ ([] : List SessionRec), a.courseName = course.title ∧
          a.startTime = suitableSlot.startTime ∧ a.endTime = suitableSlot.endTime) ∧
        ([] : List SessionRec).map (·.sessionNumber) =
          List.range' 1 ([] : List SessionRec).length ∧
        (([] : List SessionRec) ≠ [] →
          ([] : List SessionRec).length = acc.length + (rem + 1))) := by
      rw [hroll]
      exact ⟨fun _ => rfl, by simpa using hcore₀, rfl, by simp, rfl,
        fun hne => absurd rfl hne⟩
    rw [show sessionsLoop course suitableSlot qds (rem + 1) sessionNum currentDate acc g =
      (match findNextAvailableDate currentDate suitableSlot.dayOfWeek qds with
       | none => ([], rollbackSessions acc g)
       | some sessionDate =>
         match g.find? (fun day => day.date == sessionDate) with
         | none => ([], rollbackSessions acc g)
         | some dayData =>
           match bookAt dayData.slots suitableSlot.startTime course.title sessionNum with
           | none => ([], rollbackSessions acc g)
           | some slots' =>
             sessionsLoop course suitableSlot qds rem (sessionNum + 1)
               (addDaysN 7 sessionDate)
               (acc ++ [⟨sessionDate, course.title, sessionNum,
                 suitableSlot.startTime, suitableSlot.endTime, "", ""⟩])
               (setDaySlots g sessionDate slots')) from rfl] at h
    generalize hfind : findNextAvailableDate currentDate suitableSlot.dayOfWeek qds = fo at h
    cases fo with
    | none =>
      simp only [] at h
      cases h
      exact hfail
    | some sessionDate =>
      simp only [] at h
      generalize hfd : g.find? (fun day => day.date == sessionDate) = fdo at h
      cases fdo with
      | none =>
        simp only [] at h
        cases h
        exact hfail
      | some dayData =>
        simp only [] at h
        generalize hbk :
          bookAt dayData.slots suitableSlot.startTime course.title sessionNum = bko at h
        cases bko with
        | none =>
          simp only [] at h
          cases h
          exact hfail
        | some slots' =>
          simp only [] at h
          obtain ⟨hmem, hle⟩ := findNext_mem hfind
          have hvd : validYmd sessionDate := hqv _ hmem
          obtain ⟨pre, post, s, spre, spost, hg, hdd, hpre, hpost, hsl, hst, hav, hsess,
            hspre, hspost, hsl', hshape, hrel, hset, hwf'⟩ :=
            book_step hcore.wf hfd hbk
          have hdayname : dayNameOf sessionDate = suitableSlot.dayOfWeek :=
            findNext_dayName hsdw hfind
          have haccne : ∀ a ∈ acc, a.date ≠ sessionDate := by
            intro a ha hda
            have hlt := hdates a ha
            rw [hda] at hlt
            omega
          have hfd₀ : g₀.find? (fun x => x.date == sessionDate) = some dayData := by
            rw [← hroll, find?_rollback_ne haccne]
            exact hfd
          have hstarts : slots'.map (·.start) = dayData.slots.map (·.start) := by
            have := congrArg (List.map Prod.fst) hshape
            simpa [List.map_map, Function.comp] using this
          have hdmem : dayData ∈ g := by
            rw [hg]
            exact List.mem_append_right _ (List.mem_cons_self _ _)
          -- re-established hypotheses for the recursive call
          have hroll' : rollbackSessions
              (acc ++ [⟨sessionDate, course.title, sessionNum,
                suitableSlot.startTime, suitableSlot.endTime, "", ""⟩])
              (setDaySlots g sessionDate slots') = g₀ := by
            rw [rollbackSessions_append, setDaySlots_eq_modDay,
              rollback_modDay_comm haccne, hroll, rollbackSessions_one]
            show modDay (modDay g₀ sessionDate fun _ => slots') sessionDate
              (fun sl => releaseAt sl suitableSlot.startTime) = g₀
            rw [modDay_modDay_same]
            exact modDay_id hcore₀.wf.1 hfd₀ (by rw [hrel])
          have hdates' : ∀ a ∈ acc ++ [⟨sessionDate, course.title, sessionNum,
              suitableSlot.startTime, suitableSlot.endTime, "", ""⟩],
              toRD a.date < toRD (addDaysN 7 sessionDate) := by
            rw [toRD_addDaysN 7 hvd]
            intro a ha
            rcases List.mem_append.mp ha with h1 | h2
            · have := hdates a h1
              omega
            · rw [List.mem_singleton.mp h2]
              show toRD sessionDate < toRD sessionDate + 7
              omega
          have hconsist' : Consistent (setDaySlots g sessionDate slots')
              (outer ++ (acc ++ [⟨sessionDate, course.title, sessionNum,
                suitableSlot.startTime, suitableSlot.endTime, "", ""⟩])) := by
            intro day hday sl hsl2
            rw [← List.append_assoc, occCount_append]
            rw [hset] at hday
            rcases List.mem_append.mp hday with hdl | hdr
            · have hne : day.date ≠ sessionDate := hpre day hdl
              rw [occCount_one_miss (by
                intro hcc
                exact hne (hcc.1.symm))]
              rw [Nat.add_zero]
              exact hcore.consistent day (by rw [hg]; exact List.mem_append_left _ hdl) sl hsl2
            · rcases List.mem_cons.mp hdr with rfl | hdp
              · -- the booked day
                show occCount (outer ++ acc) dayData.date sl.start +
                  occCount [_] dayData.date sl.start = _
                simp only [hsl'] at hsl2
                rcases List.mem_append.mp hsl2 with hs1 | hs2
                · have hne : sl.start ≠ suitableSlot.startTime := hspre sl hs1
                  rw [occCount_one_miss (by
                    intro hcc
                    exact hne hcc.2.symm)]
                  rw [Nat.add_zero]
                  exact hcore.consistent dayData hdmem sl
                    (by rw [hsl]; exact List.mem_append_left _ hs1)
                · rcases List.mem_cons.mp hs2 with rfl | hs3
                  · -- the freshly booked slot
                    have h0 : occCount (outer ++ acc) dayData.date s.start = 0 := by
                      have := hcore.consistent dayData hdmem s
                        (by rw [hsl]; exact List.mem_append_right _ (List.mem_cons_self _ _))
                      rw [this, if_pos hav]
                    show occCount (outer ++ acc) dayData.date s.start +
                      occCount [_] dayData.date s.start = _
                    rw [h0, occCount_one_match (by rw [hdd]) (by rw [hst]),
                      Nat.zero_add]
                    rfl
                  · have hne : sl.start ≠ suitableSlot.startTime := hspost sl hs3
                    rw [occCount_one_miss (by
                      intro hcc
                      exact hne hcc.2.symm)]
                    rw [Nat.add_zero]
                    exact hcore.consistent dayData hdmem sl
                      (by rw [hsl]; exact List.mem_append_right _ (List.mem_cons_of_mem _ hs3))
              · have hne : day.date ≠ sessionDate := hpost day hdp
                rw [occCount_one_miss (by
                  intro hcc
                  exact hne (hcc.1.symm))]
                rw [Nat.add_zero]
                exact hcore.consistent day
                  (by rw [hg]; exact List.mem_append_right _ (List.mem_cons_of_mem _ hdp)) sl hsl2
          have hing' : InGrid (setDaySlots g sessionDate slots')
              (outer ++ (acc ++ [⟨sessionDate, course.title, sessionNum,
                suitableSlot.startTime, suitableSlot.endTime, "", ""⟩])) := by
            rw [← List.append_assoc]
            intro sess hsess
            rcases List.mem_append.mp hsess with hold | hnew
            · obtain ⟨day, hday, hdate, sl, hslm, hstart⟩ := hcore.inGrid sess hold
              rw [hg] at hday
              rw [hset]
              rcases List.mem_append.mp hday with hdl | hdr
              · exact ⟨day, List.mem_append_left _ hdl, hdate, sl, hslm, hstart⟩
              · rcases List.mem_cons.mp hdr with heq | hdp
                · refine ⟨{ dayData with slots := slots' },
                    List.mem_append_right _ (List.mem_cons_self _ _),
                    by rw [← hdate, heq], ?_⟩
                  have hslm' : sl ∈ dayData.slots := heq ▸ hslm
                  have : sl.start ∈ slots'.map (·.start) := by
                    rw [hstarts]
                    exact List.mem_map_of_mem _ hslm'
                  obtain ⟨sl', hsl'm, hsl'e⟩ := List.mem_map.mp this
                  exact ⟨sl', hsl'm, by rw [hsl'e, hstart]⟩
                · exact ⟨day, List.mem_append_right _ (List.mem_cons_of_mem _ hdp),
                    hdate, sl, hslm, hstart⟩
            · rw [List.mem_singleton.mp hnew]
              rw [hset]
              refine ⟨{ dayData with slots := slots' },
                List.mem_append_right _ (List.mem_cons_self _ _), hdd, ?_⟩
              refine ⟨{ s with available := false, session := some ⟨course.title, sessionNum⟩ }, ?_, ?_⟩
              · rw [hsl']
                exact List.mem_append_right _ (List.mem_cons_self _ _)
              · exact hst
          have hfi' : fiWindowOk (outer ++ (acc ++ [⟨sessionDate, course.title, sessionNum,
              suitableSlot.startTime, suitableSlot.endTime, "", ""⟩])) := by
            rw [← List.append_assoc]
            intro sess hsess hisfi
            rcases List.mem_append.mp hsess with hold | hnew
            · exact hcore.fiWindows sess hold hisfi
            · rw [List.mem_singleton.mp hnew]
              rw [List.mem_singleton.mp hnew] at hisfi
              show isValidForFinancialIntelligence (dayNameOf sessionDate)
                suitableSlot.startTime = true
              rw [hdayname]
              exact hsufi hisfi
          have hcore' : CoreInv (setDaySlots g sessionDate slots')
              (outer ++ (acc ++ [⟨sessionDate, course.title, sessionNum,
                suitableSlot.startTime, suitableSlot.endTime, "", ""⟩])) :=
            ⟨hwf', hconsist', hing', hfi'⟩
          have hfields' : ∀ a ∈ acc ++ [⟨sessionDate, course.title, sessionNum,
              suitableSlot.startTime, suitableSlot.endTime, "", ""⟩],
              a.courseName = course.title ∧ a.startTime = suitableSlot.startTime ∧
              a.endTime = suitableSlot.endTime := by
            intro a ha
            rcases List.mem_append.mp ha with h1 | h2
            · exact hfields a h1
            · rw [List.mem_singleton.mp h2]
              exact ⟨rfl, rfl, rfl⟩
          have hnums' : (acc ++ [(⟨sessionDate, course.title, sessionNum,
              suitableSlot.startTime, suitableSlot.endTime, "", ""⟩ :
                SessionRec)]).map (·.sessionNumber) =
              List.range' 1 (acc ++ [(⟨sessionDate, course.title, sessionNum,
                suitableSlot.startTime, suitableSlot.endTime, "", ""⟩ :
                  SessionRec)]).length := by
            rw [List.map_append, hnums, List.length_append]
            simp only [List.map_cons, List.map_nil, List.length_singleton]
            rw [List.range'_concat]
            congr 2
            omega
          have hsn' : sessionNum + 1 = (acc ++ [(⟨sessionDate, course.title, sessionNum,
              suitableSlot.startTime, suitableSlot.endTime, "", ""⟩ :
                SessionRec)]).length + 1 := by
            rw [List.length_append]
            simp [hsn]
          have hgd' : (setDaySlots g sessionDate slots').map (·.date) = g₀.map (·.date) := by
            rw [setDaySlots_eq_modDay, modDay_date_map, hgd]
          obtain ⟨c1, c2, c3, c4, c5, c6⟩ := ih (sessionNum + 1) (addDaysN 7 sessionDate)
            _ _ ss g' hroll' hdates' hcore' hfields' hnums' hsn' hgd' h
          refine ⟨c1, c2, c3, c4, c5, ?_⟩
          intro hne
          have := c6 hne
          rw [List.length_append] at this
          simp only [List.length_singleton] at this
          omega

/-! ## Course-history map lemmas -/

theorem histOf_cons (p : String × List HistEntry) (ch : History) (t : String) :
    histOf (p :: ch) t = if p.1 == t then p.2 else histOf ch t := by
  unfold histOf
  by_cases h : (p.1 == t) = true
  · have hf : (p :: ch).find? (fun q => q.1 == t) = some p := List.find?_cons_of_pos _ h
    rw [hf, if_pos h]
  · have hf : (p :: ch).find? (fun q => q.1 == t) = ch.find? (fun q => q.1 == t) :=
      List.find?_cons_of_neg _ (by simpa using h)
    rw [hf, if_neg h]

theorem find?_append_none {α : Type} {l₁ l₂ : List α} {p : α → Bool}
    (h : ∀ x ∈ l₁, p x = false) : (l₁ ++ l₂).find? p = l₂.find? p := by
  induction l₁ with
  | nil => rfl
  | cons a t ih =>
    rw [List.cons_append, List.find?_cons_of_neg _ (by simp [h a (List.mem_cons_self a t)]),
      ih fun x hx => h x (List.mem_cons_of_mem _ hx)]

theorem find?_append_general {α : Type} (l₁ l₂ : List α) (p : α → Bool) :
    (l₁ ++ l₂).find? p =
      (match l₁.find? p with
       | some x => some x
       | none => l₂.find? p) := by
  induction l₁ with
  | nil => rfl
  | cons a t ih =>
    by_cases hpa : p a = true
    · rw [List.cons_append, List.find?_cons_of_pos _ hpa, List.find?_cons_of_pos _ hpa]
    · rw [List.cons_append, List.find?_cons_of_neg _ (by simpa using hpa),
        List.find?_cons_of_neg _ (by simpa using hpa), ih]

theorem histOf_map_set_same : ∀ (ch : History) (t : String) (v : List HistEntry),
    ch.any (fun p => p.1 == t) = true →
    histOf (ch.map (fun p => if p.1 == t then (p.1, v) else p)) t = v := by
  intro ch t v
  induction ch with
  | nil => intro h; cases h
  | cons a l ih =>
    intro hany
    simp only [List.map_cons]
    by_cases hat : (a.1 == t) = true
    · rw [if_pos hat, histOf_cons, if_pos hat]
    · rw [if_neg hat, histOf_cons, if_neg hat]
      apply ih
      rw [List.any_cons] at hany
      simpa [hat] using hany

theorem histOf_map_set_ne (ch : History) {t t' : String} (v : List HistEntry)
    (hne : t' ≠ t) :
    histOf (ch.map (fun p => if p.1 == t then (p.1, v) else p)) t' = histOf ch t' := by
  induction ch with
  | nil => rfl
  | cons a l ih =>
    simp only [List.map_cons]
    by_cases hat : (a.1 == t) = true
    · rw [if_pos hat, histOf_cons, histOf_cons]
      have hat' : ¬ ((a.1 == t') = true) := by
        simp only [beq_iff_eq] at hat ⊢
        rw [hat]
        exact fun hc => hne hc.symm
      rw [if_neg hat', if_neg hat']
      exact ih
    · rw [if_neg hat, histOf_cons, histOf_cons]
      by_cases h2 : (a.1 == t') = true
      · rw [if_pos h2, if_pos h2]
      · rw [if_neg h2, if_neg h2]
        exact ih

theorem histOf_histSet_same (ch : History) (t : String) (v : List HistEntry) :
    histOf (histSet ch t v) t = v := by
  unfold histSet
  by_cases hany : ch.any (fun p => p.1 == t) = true
  · rw [if_pos hany]
    exact histOf_map_set_same ch t v hany
  · rw [if_neg hany]
    have hany' : ch.any (fun p => p.1 == t) = false := by
      revert hany
      cases ch.any (fun p => p.1 == t) <;> simp
    have hall := List.any_eq_false.mp hany'
    unfold histOf
    rw [find?_append_none (fun x hx => by
      have := hall x hx
      revert this
      cases (x.1 == t) <;> simp)]
    rw [List.find?_cons_of_pos _ (by simp)]

theorem histOf_histSet_ne (ch : History) {t t' : String} (v : List HistEntry)
    (hne : t' ≠ t) : histOf (histSet ch t v) t' = histOf ch t' := by
  unfold histSet
  by_cases hany : ch.any (fun p => p.1 == t) = true
  · rw [if_pos hany]
    exact histOf_map_set_ne ch v hne
  · rw [if_neg hany]
    unfold histOf
    rw [find?_append_general]
    cases hf : ch.find? (fun p => p.1 == t') with
    | some p => rfl
    | none =>
      rw [List.find?_cons_of_neg _ (by simp only [beq_iff_eq]; exact Ne.symm hne)]
      rfl

/-! ## `scheduleCourseSessions` -/

theorem scheduleCourseSessions_spec {course : Course} {startDate : Ymd} {qds : List Ymd}
    (hqv : validDates qds) {g₀ : Grid} {outer : List SessionRec}
    (hcore₀ : CoreInv g₀ outer) {ch : History} {isFI : Bool}
    (hfi : isFI = isFinancialIntelligenceTitle course.title)
    {ss : List SessionRec} {g' : Grid}
    (h : scheduleCourseSessions course startDate qds g₀ ch isFI = (ss, g')) :
    (ss = [] → g' = g₀) ∧ CoreInv g' (outer ++ ss) ∧
      g'.map (·.date) = g₀.map (·.date) ∧
      ss.map (·.sessionNumber) = List.range' 1 ss.length ∧
      (ss ≠ [] → ss.length = course.sessions ∧
        ∃ su, findSuitableSlot startDate course g₀ (histOf ch course.title) isFI = some su ∧
          su.dayOfWeek = dayNameOf startDate ∧
          ∀ a ∈ ss, a.courseName = course.title ∧ a.startTime = su.startTime ∧
            a.endTime = su.endTime) := by
  unfold scheduleCourseSessions at h
  dsimp only at h
  generalize hfs : findSuitableSlot startDate course g₀ (histOf ch course.title) isFI = fso at h
  cases fso with
  | none =>
    simp only [] at h
    cases h
    exact ⟨fun _ => rfl, by rw [List.append_nil]; exact hcore₀, rfl, rfl,
      fun hne => absurd rfl hne⟩
  | some su =>
    simp only [] at h
    obtain ⟨dayData, hfd, slot, hslm, hav, hsueq, hfiv, hlast⟩ := findSuitableSlot_some hfs
    have hsdw : ∃ k, k < 7 ∧ su.dayOfWeek = DAY_NAMES.getD k "" :=
      ⟨dayOfWeek startDate, dayOfWeek_lt _, by rw [hsueq]; rfl⟩
    have hsufi : isFinancialIntelligenceTitle course.title = true →
        isValidForFinancialIntelligence su.dayOfWeek su.startTime = true := by
      intro ht
      have hft : isFI = true := by rw [hfi, ht]
      have hv := hfiv hft
      rw [hsueq]
      exact hv
    obtain ⟨c1, c2, c3, c4, c5, c6⟩ :=
      sessionsLoop_spec course su qds hqv outer g₀ hcore₀ hsdw hsufi course.sessions
        1 startDate [] g₀ ss g' rfl (fun a ha => absurd ha (List.not_mem_nil a))
        (by rw [List.append_nil]; exact hcore₀)
        (fun a ha => absurd ha (List.not_mem_nil a)) rfl rfl rfl h
    refine ⟨c1, c2, c3, c5, ?_⟩
    intro hne
    refine ⟨by simpa using c6 hne, su, rfl, by rw [hsueq], c4⟩

theorem fiValid_bounds {w : String} {t : Time}
    (h : isValidForFinancialIntelligence w t = true) : 10 ≤ t.h ∧ t.h < 13 := by
  unfold isValidForFinancialIntelligence at h
  split at h
  · cases h
  · simpa [Bool.and_eq_true, decide_eq_true_eq] using h

theorem fiValid_day {w : String} {t : Time}
    (h : isValidForFinancialIntelligence w t = true) :
    w = "TUESDAY" ∨ w = "WEDNESDAY" := by
  unfold isValidForFinancialIntelligence at h
  split at h
  · cases h
  · next hc =>
    by_cases h1 : w = "TUESDAY"
    · exact Or.inl h1
    · by_cases h2 : w = "WEDNESDAY"
      · exact Or.inr h2
      · exact absurd (by simp [h1, h2]) hc

theorem scheduleCourseSessions_fi_blocked {course : Course} {startDate : Ymd}
    {qds : List Ymd} {g : Grid} {ch : History}
    (hwf : WFgrid g) (hne : histOf ch course.title ≠ [])
    (hht : ∀ e ∈ histOf ch course.title,
      10 ≤ e.startTime.h ∧ e.startTime.h < 13 ∧ e.startTime.m < 60) :
    scheduleCourseSessions course startDate qds g ch true = ([], g) := by
  have hnone : findSuitableSlot startDate course g (histOf ch course.title) true = none := by
    unfold findSuitableSlot
    cases hfd : g.find? (fun day => day.date == startDate) with
    | none => rfl
    | some dayData =>
      have hmem : dayData ∈ g := List.mem_of_find?_eq_some hfd
      rw [List.getLast?_eq_getLast _ hne]
      obtain ⟨h1, h2, h3⟩ := hht _ (List.getLast_mem hne)
      exact findSuitableSlotLoop_fi_none h1 h2 h3 fun s hs => WF_minute_lt hwf hmem hs
  unfold scheduleCourseSessions
  dsimp only
  rw [hnone]

/-! ## Counting session-1 records -/

theorem countP_eq_of_forall {α : Type} {p q : α → Bool} :
    ∀ {l : List α}, (∀ x ∈ l, p x = q x) → l.countP p = l.countP q := by
  intro l
  induction l with
  | nil => intro _; rfl
  | cons a tl ih =>
    intro h
    rw [List.countP_cons, List.countP_cons, h a (List.mem_cons_self a tl),
      ih fun x hx => h x (List.mem_cons_of_mem _ hx)]

theorem countP_range'_one (n : Nat) :
    (List.range' 1 n).countP (fun m => m == 1) = if n = 0 then 0 else 1 := by
  cases n with
  | zero => rfl
  | succ k =>
    rw [if_neg (Nat.succ_ne_zero k), List.range'_succ, List.countP_cons]
    have h0 : (List.range' 2 k).countP (fun m => m == 1) = 0 := by
      rw [List.countP_eq_zero]
      intro a ha
      obtain ⟨h1, h2⟩ := List.mem_range'_1.mp ha
      simp only [beq_iff_eq]
      omega
    rw [h0]
    simp

theorem countP_inst_one {ss : List SessionRec} {c : String}
    (hc : ∀ a ∈ ss, a.courseName = c)
    (hnums : ss.map (·.sessionNumber) = List.range' 1 ss.length)
    (hne : ss ≠ []) :
    (ss.countP fun s => s.courseName == c && s.sessionNumber == 1) = 1 := by
  have h1 : (ss.countP fun s => s.courseName == c && s.sessionNumber == 1) =
      ss.countP fun s => s.sessionNumber == 1 :=
    countP_eq_of_forall fun x hx => by simp [hc x hx]
  have h2 : (ss.countP fun s => s.sessionNumber == 1) =
      (ss.map (·.sessionNumber)).countP fun m => m == 1 := by
    rw [List.countP_map]
    rfl
  rw [h1, h2, hnums, countP_range'_one,
    if_neg fun hc0 => hne (List.length_eq_zero.mp hc0)]

theorem countP_inst_zero {ss : List SessionRec} {c t : String}
    (hc : ∀ a ∈ ss, a.courseName = c) (hne : t ≠ c) :
    (ss.countP fun s => s.courseName == t && s.sessionNumber == 1) = 0 := by
  rw [List.countP_eq_zero]
  intro a ha
  simp [hc a ha, Ne.symm hne]

/-! ## The per-start-date attempt loop -/

theorem tryStartDates_spec {course : Course} {qds : List Ymd} (hqv : validDates qds)
    {isFI : Bool} (hfi : isFI = isFinancialIntelligenceTitle course.title) :
    ∀ (dates : List Ymd) (g : Grid) (ch : History) (sessions : List SessionRec)
      (ss : List SessionRec) (g' : Grid) (ch' : History),
      EngineInv g sessions ch →
      tryStartDates course qds isFI dates g ch = (ss, g', ch') →
      EngineInv g' (sessions ++ ss) ch' ∧
        g'.map (·.date) = g.map (·.date) ∧
        ∀ t, t ≠ course.title → histOf ch' t = histOf ch t := by
  intro dates
  induction dates with
  | nil =>
    intro g ch sessions ss g' ch' hinv h
    cases h
    exact ⟨by rw [List.append_nil]; exact hinv, rfl, fun t _ => rfl⟩
  | cons startDate rest ih =>
    intro g ch sessions ss g' ch' hinv h
    rw [show tryStartDates course qds isFI (startDate :: rest) g ch =
      (match scheduleCourseSessions course startDate qds g ch isFI with
       | ([], grid') => tryStartDates course qds isFI rest grid' ch
       | (s0 :: scheduledRest, grid') =>
         ((s0 :: scheduledRest) ++
            (tryStartDates course qds isFI rest grid'
              (histSet ch course.title (histOf ch course.title ++
                [⟨startDate, dayNameOf startDate, s0.startTime⟩]))).1,
          (tryStartDates course qds isFI rest grid'
            (histSet ch course.title (histOf ch course.title ++
              [⟨startDate, dayNameOf startDate, s0.startTime⟩]))).2.1,
          (tryStartDates course qds isFI rest grid'
            (histSet ch course.title (histOf ch course.title ++
              [⟨startDate, dayNameOf startDate, s0.startTime⟩]))).2.2)) from rfl] at h
    generalize hscs : scheduleCourseSessions course startDate qds g ch isFI = scsr at h
    obtain ⟨ssc, g2⟩ := scsr
    cases ssc with
    | nil =>
      simp only [] at h
      obtain ⟨c1, -, -, -, -⟩ := scheduleCourseSessions_spec hqv hinv.core hfi hscs
      have hg2 : g2 = g := c1 rfl
      subst hg2
      exact ih _ ch sessions ss g' ch' hinv h
    | cons s0 sr =>
      simp only [] at h
      generalize hres : tryStartDates course qds isFI rest g2
        (histSet ch course.title (histOf ch course.title ++
          [⟨startDate, dayNameOf startDate, s0.startTime⟩])) = res at h
      obtain ⟨ss2, g3, ch3⟩ := res
      simp only [] at h
      cases h
      obtain ⟨-, hcore2, hmap2, hnums2, hne5⟩ :=
        scheduleCourseSessions_spec hqv hinv.core hfi hscs
      obtain ⟨hlen, su, hfsu, hsuw, hfieldsAll⟩ := hne5 (List.cons_ne_nil s0 sr)
      obtain ⟨dayData, hfd, slot, hslm, hav, hsueq, hfiv, hlast⟩ := findSuitableSlot_some hfsu
      have hs0slot : s0.startTime = slot.start := by
        rw [(hfieldsAll s0 (List.mem_cons_self s0 sr)).2.1, hsueq]
      have hinv2 : EngineInv g2 (sessions ++ (s0 :: sr))
          (histSet ch course.title (histOf ch course.title ++
            [⟨startDate, dayNameOf startDate, s0.startTime⟩])) := by
        refine ⟨hcore2, ?_, ?_, ?_, ?_, ?_⟩
        · intro t ht e he
          by_cases htt : t = course.title
          · subst htt
            rw [histOf_histSet_same] at he
            rcases List.mem_append.mp he with hold | hnew
            · exact hinv.histTimes course.title ht e hold
            · rw [List.mem_singleton.mp hnew]
              have hfiT : isFI = true := by rw [hfi]; exact ht
              have hb := fiValid_bounds (hfiv hfiT)
              have hm : slot.start.m < 60 :=
                WF_minute_lt hinv.core.wf (List.mem_of_find?_eq_some hfd) hslm
              show 10 ≤ s0.startTime.h ∧ s0.startTime.h < 13 ∧ s0.startTime.m < 60
              rw [hs0slot]
              exact ⟨hb.1, hb.2, hm⟩
          · rw [histOf_histSet_ne _ _ htt] at he
            exact hinv.histTimes t ht e he
        · intro t ht
          by_cases htt : t = course.title
          · subst htt
            rw [histOf_histSet_same]
            have hfiF : isFI = false := by rw [hfi]; exact ht
            rw [List.chain'_append]
            refine ⟨hinv.sepChain _ ht, List.chain'_singleton _, ?_⟩
            intro x hx y hy
            have hxl : (histOf ch course.title).getLast? = some x := Option.mem_def.mp hx
            have hy' : y = ⟨startDate, dayNameOf startDate, s0.startTime⟩ := by
              symm
              simpa using hy
            obtain ⟨hwne, hsep⟩ := hlast x hxl
            subst hy'
            refine ⟨fun hc => hwne hfiF hc.symm, ?_⟩
            show 3 ≤ getTimeDifferenceInHours s0.startTime x.startTime
            rw [hs0slot]
            exact not_lt.mp hsep
          · rw [histOf_histSet_ne _ _ htt]
            exact hinv.sepChain t ht
        · intro t e he
          by_cases htt : t = course.title
          · subst htt
            rw [histOf_histSet_same] at he
            rcases List.mem_append.mp he with hold | hnew
            · exact hinv.histDays course.title e hold
            · rw [List.mem_singleton.mp hnew]
          · rw [histOf_histSet_ne _ _ htt] at he
            exact hinv.histDays t e he
        · intro t
          rw [List.countP_append]
          by_cases htt : t = course.title
          · subst htt
            rw [histOf_histSet_same, List.length_append, hinv.instCount course.title]
            congr 1
            exact countP_inst_one (fun a ha => (hfieldsAll a ha).1) hnums2
              (List.cons_ne_nil s0 sr)
          · rw [histOf_histSet_ne _ _ htt, ← hinv.instCount t,
              countP_inst_zero (fun a ha => (hfieldsAll a ha).1) htt, Nat.add_zero]
        · intro t ht
          by_cases htt : t = course.title
          · subst htt
            by_cases hold : histOf ch course.title = []
            · rw [histOf_histSet_same, hold]
              simp
            · exfalso
              have hfiT : isFI = true := by rw [hfi]; exact ht
              have hblocked : scheduleCourseSessions course startDate qds g ch true =
                  ([], g) :=
                scheduleCourseSessions_fi_blocked hinv.core.wf hold
                  (hinv.histTimes course.title ht)
              rw [hfiT] at hscs
              rw [hblocked] at hscs
              injection hscs with h1 h2
              exact absurd h1.symm (List.cons_ne_nil s0 sr)
          · rw [histOf_histSet_ne _ _ htt]
            exact hinv.fiHistLen t ht
      obtain ⟨ih1, ih2, ih3⟩ := ih g2 _ (sessions ++ (s0 :: sr)) ss2 _ _ hinv2 hres
      refine ⟨?_, ?_, ?_⟩
      · rw [← List.append_assoc]
        exact ih1
      · rw [ih2, hmap2]
      · intro t htt
        rw [ih3 t htt, histOf_histSet_ne _ _ htt]

/-! ## Per-cadence-date loop, per-course, all courses -/

theorem perCadenceDates_spec {course : Course} {qds : List Ymd} (hqv : validDates qds)
    {isFI : Bool} (hfi : isFI = isFinancialIntelligenceTitle course.title) :
    ∀ (cds : List Ymd) (g : Grid) (ch : History) (sessions : List SessionRec)
      (ss : List SessionRec) (g' : Grid) (ch' : History),
      EngineInv g sessions ch →
      perCadenceDates course qds isFI cds g ch = (ss, g', ch') →
      EngineInv g' (sessions ++ ss) ch' ∧
        g'.map (·.date) = g.map (·.date) ∧
        ∀ t, t ≠ course.title → histOf ch' t = histOf ch t := by
  intro cds
  induction cds with
  | nil =>
    intro g ch sessions ss g' ch' hinv h
    cases h
    exact ⟨by rw [List.append_nil]; exact hinv, rfl, fun t _ => rfl⟩
  | cons cd rest ih =>
    intro g ch sessions ss g' ch' hinv h
    rw [show perCadenceDates course qds isFI (cd :: rest) g ch =
      ((tryStartDates course qds isFI
          (qds.filter fun date => decide (toRD cd ≤ toRD date)) g ch).1 ++
        (perCadenceDates course qds isFI rest
          (tryStartDates course qds isFI
            (qds.filter fun date => decide (toRD cd ≤ toRD date)) g ch).2.1
          (tryStartDates course qds isFI
            (qds.filter fun date => decide (toRD cd ≤ toRD date)) g ch).2.2).1,
        (perCadenceDates course qds isFI rest
          (tryStartDates course qds isFI
            (qds.filter fun date => decide (toRD cd ≤ toRD date)) g ch).2.1
          (tryStartDates course qds isFI
            (qds.filter fun date => decide (toRD cd ≤ toRD date)) g ch).2.2).2.1,
        (perCadenceDates course qds isFI rest
          (tryStartDates course qds isFI
            (qds.filter fun date => decide (toRD cd ≤ toRD date)) g ch).2.1
          (tryStartDates course qds isFI
            (qds.filter fun date => decide (toRD cd ≤ toRD date)) g ch).2.2).2.2) from
      rfl] at h
    generalize hr1 : tryStartDates course qds isFI
      (qds.filter fun date => decide (toRD cd ≤ toRD date)) g ch = r1 at h
    obtain ⟨ss1, g1, ch1⟩ := r1
    simp only [] at h
    generalize hr2 : perCadenceDates course qds isFI rest g1 ch1 = r2 at h
    obtain ⟨ss2, g2, ch2⟩ := r2
    simp only [] at h
    cases h
    obtain ⟨hinv1, hmap1, hhist1⟩ :=
      tryStartDates_spec hqv hfi _ g ch sessions ss1 g1 ch1 hinv hr1
    obtain ⟨hinv2, hmap2, hhist2⟩ := ih g1 ch1 (sessions ++ ss1) ss2 _ _ hinv1 hr2
    refine ⟨?_, ?_, ?_⟩
    · rw [← List.append_assoc]
      exact hinv2
    · rw [hmap2, hmap1]
    · intro t htt
      rw [hhist2 t htt, hhist1 t htt]

theorem scheduleCourse_spec {course : Course} {fys : Ymd} {qds : List Ymd}
    (hqv : validDates qds) {g : Grid} {ch : History} {sessions ss : List SessionRec}
    {g' : Grid} {ch' : History}
    (hinv : EngineInv g sessions ch)
    (h : scheduleCourse course fys qds g ch = (ss, g', ch')) :
    EngineInv g' (sessions ++ ss) ch' ∧
      g'.map (·.date) = g.map (·.date) ∧
      ∀ t, t ≠ course.title → histOf ch' t = histOf ch t := by
  unfold scheduleCourse at h
  dsimp only at h
  exact perCadenceDates_spec hqv rfl _ g ch sessions ss g' ch' hinv h

theorem scheduleAllCourses_spec {fys : Ymd} {qds : List Ymd} (hqv : validDates qds) :
    ∀ (courses : List Course) (g : Grid) (ch : History) (sessions ss : List SessionRec)
      (g' : Grid) (ch' : History),
      EngineInv g sessions ch →
      scheduleAllCourses fys qds courses g ch = (ss, g', ch') →
      EngineInv g' (sessions ++ ss) ch' ∧ g'.map (·.date) = g.map (·.date) := by
  intro courses
  induction courses with
  | nil =>
    intro g ch sessions ss g' ch' hinv h
    cases h
    exact ⟨by rw [List.append_nil]; exact hinv, rfl⟩
  | cons c rest ih =>
    intro g ch sessions ss g' ch' hinv h
    rw [show scheduleAllCourses fys qds (c :: rest) g ch =
      ((scheduleCourse c fys qds g ch).1 ++
        (scheduleAllCourses fys qds rest (scheduleCourse c fys qds g ch).2.1
          (scheduleCourse c fys qds g ch).2.2).1,
        (scheduleAllCourses fys qds rest (scheduleCourse c fys qds g ch).2.1
          (scheduleCourse c fys qds g ch).2.2).2.1,
        (scheduleAllCourses fys qds rest (scheduleCourse c fys qds g ch).2.1
          (scheduleCourse c fys qds g ch).2.2).2.2) from rfl] at h
    generalize hr1 : scheduleCourse c fys qds g ch = r1 at h
    obtain ⟨ss1, g1, ch1⟩ := r1
    simp only [] at h
    generalize hr2 : scheduleAllCourses fys qds rest g1 ch1 = r2 at h
    obtain ⟨ss2, g2, ch2⟩ := r2
    simp only [] at h
    cases h
    obtain ⟨hinv1, hmap1, -⟩ := scheduleCourse_spec hqv hinv hr1
    obtain ⟨hinv2, hmap2⟩ := ih g1 ch1 (sessions ++ ss1) ss2 _ _ hinv1 hr2
    refine ⟨?_, ?_⟩
    · rw [← List.append_assoc]
      exact hinv2
    · rw [hmap2, hmap1]

/-! ## The initial grid -/

theorem initGrid_dates (qds : List Ymd) :
    (initAvailabilityGrid qds).map (·.date) = qds := by
  induction qds with
  | nil => rfl
  | cons d rest ih =>
    rw [show initAvailabilityGrid (d :: rest) =
      ⟨d, (getAvailableTimeSlots d).map fun slot => ⟨slot.start, slot.endT, true, none⟩⟩ ::
        initAvailabilityGrid rest from rfl, List.map_cons, ih]

theorem initGrid_mem {qds : List Ymd} {day : DayData}
    (h : day ∈ initAvailabilityGrid qds) :
    day.slots = (getAvailableTimeSlots day.date).map fun slot =>
      ⟨slot.start, slot.endT, true, none⟩ := by
  unfold initAvailabilityGrid at h
  obtain ⟨d, hd, rfl⟩ := List.mem_map.mp h
  rfl

theorem engineInv_init {qds : List Ymd}
    (hpw : qds.Pairwise fun a b => toRD a < toRD b) :
    EngineInv (initAvailabilityGrid qds) [] [] := by
  have hwf : WFgrid (initAvailabilityGrid qds) := by
    refine ⟨?_, ?_, ?_⟩
    · rw [initGrid_dates]
      exact hpw.imp fun hlt he => by rw [he] at hlt; exact lt_irrefl _ hlt
    · intro day hday
      rw [initGrid_mem hday, List.map_map]
      rfl
    · intro day hday s hs
      rw [initGrid_mem hday] at hs
      obtain ⟨ts, hts, rfl⟩ := List.mem_map.mp hs
      intro _
      rfl
  refine ⟨⟨hwf, ?_, ?_, ?_⟩, ?_, ?_, ?_, ?_, ?_⟩
  · intro day hday s hs
    rw [initGrid_mem hday] at hs
    obtain ⟨ts, hts, rfl⟩ := List.mem_map.mp hs
    rfl
  · exact fun sess hs => absurd hs (List.not_mem_nil _)
  · exact fun s hs => absurd hs (List.not_mem_nil _)
  · exact fun t _ e he => absurd he (List.not_mem_nil _)
  · exact fun t _ => List.chain'_nil
  · exact fun t e he => absurd he (List.not_mem_nil _)
  · exact fun t => rfl
  · exact fun t _ => Nat.zero_le _

/-! ## Transfer along permutations and the full run -/

theorem EngineInv_perm {g : Grid} {ss ss' : List SessionRec} {ch : History}
    (hinv : EngineInv g ss ch) (hp : ss.Perm ss') : EngineInv g ss' ch := by
  refine ⟨⟨hinv.core.wf, ?_, ?_, ?_⟩, hinv.histTimes, hinv.sepChain, hinv.histDays,
    ?_, hinv.fiHistLen⟩
  · intro day hday s hs
    rw [← hinv.core.consistent day hday s hs]
    exact (hp.countP_eq _).symm
  · intro sess hsess
    exact hinv.core.inGrid sess (hp.mem_iff.mpr hsess)
  · intro s hs hfi
    exact hinv.core.fiWindows s (hp.mem_iff.mpr hs) hfi
  · intro t
    rw [← hinv.instCount t]
    exact (hp.countP_eq _).symm

theorem generateScheduleFull_ok {courses : List Course} {q : String} {y : Nat}
    {r : FullResult}
    (h : generateScheduleFull courses q y = .ok r) :
    ∃ qds, getWeekdaysInQuarter q y = .ok qds ∧
      ∃ raw, scheduleAllCourses (getFinancialYearStart y) qds courses
          (initAvailabilityGrid qds) [] = (raw, r.finalGrid, r.courseHistory) ∧
        r.scheduledSessions = List.insertionSort sessionOrder raw ∧
        r.statistics = calculateStatistics r.finalGrid r.scheduledSessions := by
  unfold generateScheduleFull at h
  dsimp only at h
  cases hq : getWeekdaysInQuarter q y with
  | error e => rw [hq] at h; cases h
  | ok qds =>
    rw [hq] at h
    simp only [] at h
    refine ⟨qds, rfl, ?_⟩
    generalize hr : scheduleAllCourses (getFinancialYearStart y) qds courses
      (initAvailabilityGrid qds) [] = rr at h
    obtain ⟨raw, g2, ch2⟩ := rr
    simp only [] at h
    cases h
    exact ⟨raw, rfl, rfl, rfl⟩

theorem generateScheduleFull_inv {courses : List Course} {q : String} {y : Nat}
    {r : FullResult} (hy : 1 ≤ y) (h : generateScheduleFull courses q y = .ok r) :
    EngineInv r.finalGrid r.scheduledSessions r.courseHistory := by
  obtain ⟨qds, hq, raw, hrun, hsort, -⟩ := generateScheduleFull_ok h
  obtain ⟨s, n, hvs, rfl⟩ := getWeekdaysInQuarter_ok hy hq
  have hpw := quarterRange_pairwise hvs n
  have hqv : validDates (quarterRange s n) := quarterRange_valid hvs
  obtain ⟨hinv, -⟩ := scheduleAllCourses_spec hqv courses (initAvailabilityGrid _) []
    [] raw r.finalGrid r.courseHistory (engineInv_init hpw) hrun
  rw [List.nil_append] at hinv
  rw [hsort]
  exact EngineInv_perm hinv (List.perm_insertionSort _ _).symm

/-! ## Weekly date shape of a booked instance -/

theorem sessionsLoop_dates (course : Course) (su : SuitableSlot) {s : Ymd} (hs : validYmd s)
    {n i₀ : Nat} (hbiz : bizDayB (addDaysN i₀ s) = true)
    (hw : su.dayOfWeek = dayNameOf (addDaysN i₀ s)) :
    ∀ (remaining sessionNum m : Nat) (acc : List SessionRec) (g : Grid)
      (ss : List SessionRec) (g' : Grid),
      sessionsLoop course su (quarterRange s n) remaining sessionNum
        (addDaysN (i₀ + 7 * m) s) acc g = (ss, g') →
      ss ≠ [] →
      ss.map (·.date) = acc.map (·.date) ++
        (List.range remaining).map fun t => addDaysN (i₀ + 7 * (m + t)) s := by
  intro remaining
  induction remaining with
  | zero =>
    intro sessionNum m acc g ss g' h hne
    rw [show sessionsLoop course su (quarterRange s n) 0 sessionNum
      (addDaysN (i₀ + 7 * m) s) acc g = (acc, g) from rfl] at h
    cases h
    simp
  | succ rem ih =>
    intro sessionNum m acc g ss g' h hne
    rw [show sessionsLoop course su (quarterRange s n) (rem + 1) sessionNum
      (addDaysN (i₀ + 7 * m) s) acc g =
      (match findNextAvailableDate (addDaysN (i₀ + 7 * m) s) su.dayOfWeek
        (quarterRange s n) with
       | none => ([], rollbackSessions acc g)
       | some sessionDate =>
         match g.find? (fun day => day.date == sessionDate) with
         | none => ([], rollbackSessions acc g)
         | some dayData =>
           match bookAt dayData.slots su.startTime course.title sessionNum with
           | none => ([], rollbackSessions acc g)
           | some slots' =>
             sessionsLoop course su (quarterRange s n) rem (sessionNum + 1)
               (addDaysN 7 sessionDate)
               (acc ++ [⟨sessionDate, course.title, sessionNum,
                 su.startTime, su.endTime, "", ""⟩])
               (setDaySlots g sessionDate slots')) from rfl] at h
    rw [hw] at h
    by_cases hin : i₀ + 7 * m < n
    · have hmod : (toRD s + (i₀ + 7 * m)) % 7 = (toRD s + i₀) % 7 := by omega
      have hfn := findNext_pos hs hin hmod hbiz
      generalize hfind : findNextAvailableDate (addDaysN (i₀ + 7 * m) s)
        (dayNameOf (addDaysN i₀ s)) (quarterRange s n) = fo at h
      have hfo : fo = some (addDaysN (i₀ + 7 * m) s) := by rw [← hfind]; exact hfn
      subst hfo
      simp only [] at h
      generalize hfd : g.find? (fun day => day.date == addDaysN (i₀ + 7 * m) s) = fd at h
      cases fd with
      | none =>
        simp only [] at h
        cases h
        exact absurd rfl hne
      | some dayData =>
        simp only [] at h
        generalize hbk : bookAt dayData.slots su.startTime course.title sessionNum = bk at h
        cases bk with
        | none =>
          simp only [] at h
          cases h
          exact absurd rfl hne
        | some slots' =>
          simp only [] at h
          have hstep : addDaysN 7 (addDaysN (i₀ + 7 * m) s) =
              addDaysN (i₀ + 7 * (m + 1)) s := by
            rw [← addDaysN_add, show i₀ + 7 * m + 7 = i₀ + 7 * (m + 1) from by omega]
          rw [hstep] at h
          have hrec := ih (sessionNum + 1) (m + 1)
            (acc ++ [⟨addDaysN (i₀ + 7 * m) s, course.title, sessionNum,
              su.startTime, su.endTime, "", ""⟩])
            (setDaySlots g (addDaysN (i₀ + 7 * m) s) slots') ss g' h hne
          have htail : ([(⟨addDaysN (i₀ + 7 * m) s, course.title, sessionNum,
                su.startTime, su.endTime, "", ""⟩ : SessionRec)].map (·.date)) ++
              ((List.range rem).map fun t => addDaysN (i₀ + 7 * (m + 1 + t)) s) =
              (List.range (rem + 1)).map fun t => addDaysN (i₀ + 7 * (m + t)) s := by
            simp only [List.map_cons, List.map_nil, List.singleton_append]
            rw [List.range_succ_eq_map, List.map_cons, List.map_map]
            refine congrArg₂ List.cons rfl ?_
            apply List.map_congr_left
            intro t _
            show addDaysN (i₀ + 7 * (m + 1 + t)) s = addDaysN (i₀ + 7 * (m + (t + 1))) s
            rw [show i₀ + 7 * (m + 1 + t) = i₀ + 7 * (m + (t + 1)) from by omega]
          rw [hrec, List.map_append, List.append_assoc, htail]
    · generalize hfind : findNextAvailableDate (addDaysN (i₀ + 7 * m) s)
        (dayNameOf (addDaysN i₀ s)) (quarterRange s n) = fo at h
      have hfo : fo = none := by
        rw [← hfind]
        exact findNext_none hs _ (by omega) _
      subst hfo
      simp only [] at h
      cases h
      exact absurd rfl hne

theorem scheduleCourseSessions_shape {course : Course} {s : Ymd} (hs : validYmd s)
    {n : Nat} {startDate : Ymd} (hmem : startDate ∈ quarterRange s n)
    {g : Grid} {ch : History} {isFI : Bool} {ss : List SessionRec} {g' : Grid}
    (h : scheduleCourseSessions course startDate (quarterRange s n) g ch isFI = (ss, g'))
    (hne : ss ≠ []) :
    ss.map (·.date) = (List.range course.sessions).map fun t => addDaysN (7 * t) startDate := by
  obtain ⟨i₀, hi, rfl, hbiz⟩ := mem_quarterRange.mp hmem
  unfold scheduleCourseSessions at h
  dsimp only at h
  generalize hfs : findSuitableSlot (addDaysN i₀ s) course g
    (histOf ch course.title) isFI = fso at h
  cases fso with
  | none =>
    simp only [] at h
    cases h
    exact absurd rfl hne
  | some su =>
    simp only [] at h
    obtain ⟨dayData, hfd, slot, hslm, hav, hsueq, -, -⟩ := findSuitableSlot_some hfs
    have hw : su.dayOfWeek = dayNameOf (addDaysN i₀ s) := by rw [hsueq]
    have hd := sessionsLoop_dates course su hs hbiz hw course.sessions 1 0 [] g ss g' h hne
    rw [hd]
    simp only [List.map_nil, List.nil_append]
    apply List.map_congr_left
    intro t _
    rw [← addDaysN_add]
    rw [show i₀ + 7 * t = i₀ + 7 * (0 + t) from by omega]

/-! ## Statistics -/

theorem statsFold_eq : ∀ (g : Grid) (a b : Nat) (l : List Ymd),
    g.foldl (fun (acc : Nat × Nat × List Ymd) dayData =>
      (acc.1 + dayData.slots.length,
       acc.2.1 + (dayData.slots.filter (·.available)).length,
       if dayData.slots.length > 0 && (dayData.slots.filter (·.available)).length == 0
       then acc.2.2 ++ [dayData.date] else acc.2.2)) (a, b, l) =
      (a + totalSlotCount g, b + freeSlotCount g, l ++ fullyBookedSpec g) := by
  intro g
  induction g with
  | nil =>
    intro a b l
    show (a, b, l) = (a + totalSlotCount [], b + freeSlotCount [], l ++ fullyBookedSpec [])
    rw [show totalSlotCount [] = 0 from rfl, show freeSlotCount [] = 0 from rfl,
      show fullyBookedSpec [] = [] from rfl, Nat.add_zero, Nat.add_zero, List.append_nil]
  | cons day rest ih =>
    intro a b l
    rw [List.foldl_cons]
    dsimp only
    rw [ih]
    have t1 : totalSlotCount (day :: rest) = day.slots.length + totalSlotCount rest := by
      unfold totalSlotCount
      rw [List.map_cons, List.sum_cons]
    have f1 : freeSlotCount (day :: rest) =
        (day.slots.filter (·.available)).length + freeSlotCount rest := by
      unfold freeSlotCount
      rw [List.map_cons, List.sum_cons]
    have b1 : fullyBookedSpec (day :: rest) =
        (if day.slots.length > 0 && (day.slots.filter (·.available)).length == 0
         then [day.date] else []) ++ fullyBookedSpec rest := by
      unfold fullyBookedSpec
      by_cases hc : (day.slots.length > 0 &&
          (day.slots.filter (·.available)).length == 0) = true
      · have hfc : (day :: rest).filter (fun dd =>
            dd.slots.length > 0 && (dd.slots.filter (·.available)).length == 0) =
            day :: rest.filter (fun dd =>
              dd.slots.length > 0 && (dd.slots.filter (·.available)).length == 0) :=
          List.filter_cons_of_pos hc
        rw [hfc, List.map_cons, if_pos hc, List.singleton_append]
      · have hfc : (day :: rest).filter (fun dd =>
            dd.slots.length > 0 && (dd.slots.filter (·.available)).length == 0) =
            rest.filter (fun dd =>
              dd.slots.length > 0 && (dd.slots.filter (·.available)).length == 0) :=
          List.filter_cons_of_neg (by simpa using hc)
        rw [hfc, if_neg hc, List.nil_append]
    refine congrArg₂ Prod.mk ?_ (congrArg₂ Prod.mk ?_ ?_)
    · rw [t1]
      omega
    · rw [f1]
      omega
    · rw [b1]
      by_cases hc : (day.slots.length > 0 &&
          (day.slots.filter (·.available)).length == 0) = true
      · rw [if_pos hc, if_pos hc, List.append_assoc, List.singleton_append]
      · rw [if_neg hc, if_neg hc, List.nil_append]

theorem calculateStatistics_fields (g : Grid) (ss : List SessionRec) :
    calculateStatistics g ss =
      { totalAvailableSlots := totalSlotCount g
        slotsAfterScheduling := freeSlotCount g
        totalScheduledSessions := ss.length
        fullyBookedDates := fullyBookedSpec g
        utilizationPercentage := utilizationSpec (totalSlotCount g) (freeSlotCount g) } := by
  unfold calculateStatistics
  dsimp only
  rw [statsFold_eq]
  dsimp only
  simp only [Nat.zero_add, List.nil_append]
  unfold utilizationSpec
  rcases Nat.eq_zero_or_pos (totalSlotCount g) with h0 | hpos
  · rw [h0]
    rfl
  · rw [if_pos hpos, if_neg (by omega)]

theorem freeSlotCount_le (g : Grid) : freeSlotCount g ≤ totalSlotCount g := by
  unfold freeSlotCount totalSlotCount
  induction g with
  | nil => exact le_refl _
  | cons day rest ih =>
    rw [List.map_cons, List.map_cons, List.sum_cons, List.sum_cons]
    exact Nat.add_le_add (List.length_filter_le _ _) ih

theorem toFixed2_nonneg {x : ℚ} (hx : 0 ≤ x) : 0 ≤ toFixed2 x := by
  unfold toFixed2
  apply div_nonneg _ (by norm_num)
  have h : (0 : ℤ) ≤ Rat.floor (x * 100 + 1 / 2) := by
    rw [Rat.le_floor]
    push_cast
    nlinarith
  exact_mod_cast h

theorem toFixed2_le_100 {x : ℚ} (hx : x ≤ 100) : toFixed2 x ≤ 100 := by
  unfold toFixed2
  rw [div_le_iff (by norm_num : (0:ℚ) < 100)]
  have h : Rat.floor (x * 100 + 1 / 2) ≤ 10000 := by
    have hf : ((Rat.floor (x * 100 + 1 / 2) : ℤ) : ℚ) ≤ x * 100 + 1 / 2 :=
      Rat.le_floor.mp (le_refl _)
    by_contra hc
    push_neg at hc
    have h1 : ((10001 : ℤ) : ℚ) ≤ ((Rat.floor (x * 100 + 1 / 2) : ℤ) : ℚ) := by
      exact_mod_cast hc
    nlinarith
  calc ((Rat.floor (x * 100 + 1 / 2) : ℤ) : ℚ) ≤ ((10000 : ℤ) : ℚ) := by exact_mod_cast h
  _ = 100 * 100 := by norm_num

theorem utilizationSpec_bounds {total free : Nat} (hf : free ≤ total) :
    0 ≤ utilizationSpec total free ∧ utilizationSpec total free ≤ 100 := by
  unfold utilizationSpec
  by_cases h0 : total = 0
  · rw [if_pos h0]
    norm_num
  · rw [if_neg h0]
    have hpos : (0:ℚ) < total := by
      have : 0 < total := Nat.pos_of_ne_zero h0
      exact_mod_cast this
    have hfr : (free : ℚ) ≤ (total : ℚ) := by exact_mod_cast hf
    have hx0 : 0 ≤ (((total:ℚ) - free) / total) * 100 :=
      mul_nonneg (div_nonneg (by linarith) (le_of_lt hpos)) (by norm_num)
    have hx1 : (((total:ℚ) - free) / total) * 100 ≤ 100 := by
      rw [div_mul_eq_mul_div, div_le_iff hpos]
      nlinarith
    exact ⟨toFixed2_nonneg hx0, toFixed2_le_100 hx1⟩

/-! ## Slot double counting -/

theorem length_countP_split (slots : List GridSlot) :
    slots.length = (slots.filter (·.available)).length +
      slots.countP fun sl => !sl.available := by
  induction slots with
  | nil => rfl
  | cons a t ih =>
    rw [List.length_cons, List.filter_cons, List.countP_cons, ih]
    cases h : a.available
    · rw [if_neg (by simp [h]), if_pos (by simp [h])]
      omega
    · rw [if_pos (by simp [h]), if_neg (by simp [h]), List.length_cons]
      omega

theorem total_eq_free_add_occ (g : Grid) :
    totalSlotCount g = freeSlotCount g +
      ((g.map fun day => day.slots.countP fun sl => !sl.available).sum) := by
  unfold totalSlotCount freeSlotCount
  induction g with
  | nil => rfl
  | cons day rest ih =>
    rw [List.map_cons, List.map_cons, List.map_cons, List.sum_cons, List.sum_cons,
      List.sum_cons, ih, length_countP_split day.slots]
    omega

theorem sum_map_add_slots (L : List GridSlot) (h₁ h₂ : GridSlot → Nat) :
    ((L.map fun sl => h₁ sl + h₂ sl).sum) =
      ((L.map fun sl => h₁ sl).sum) + ((L.map fun sl => h₂ sl).sum) := by
  induction L with
  | nil => rfl
  | cons a t ih =>
    rw [List.map_cons, List.map_cons, List.map_cons, List.sum_cons, List.sum_cons,
      List.sum_cons, ih]
    omega

theorem dsum_add (g : Grid) (f₁ f₂ : DayData → GridSlot → Nat) :
    ((g.map fun day => (day.slots.map fun sl => f₁ day sl + f₂ day sl).sum).sum) =
      ((g.map fun day => (day.slots.map fun sl => f₁ day sl).sum).sum) +
      ((g.map fun day => (day.slots.map fun sl => f₂ day sl).sum).sum) := by
  induction g with
  | nil => rfl
  | cons day rest ih =>
    rw [List.map_cons, List.map_cons, List.map_cons, List.sum_cons, List.sum_cons,
      List.sum_cons, ih, sum_map_add_slots day.slots (f₁ day) (f₂ day)]
    omega

theorem sum_ite_not_eq_countP (slots : List GridSlot) :
    ((slots.map fun sl => if sl.available then 0 else 1).sum) =
      slots.countP fun sl => !sl.available := by
  induction slots with
  | nil => rfl
  | cons a t ih =>
    rw [List.map_cons, List.sum_cons, List.countP_cons, ih]
    cases h : a.available
    · rw [if_neg (by simp [h]), if_pos (by simp [h])]
      omega
    · rw [if_pos (by simp [h]), if_neg (by simp [h])]
      omega

theorem grid_occupied_eq (g : Grid) (ss : List SessionRec) (hcons : Consistent g ss) :
    ((g.map fun day => (day.slots.map fun sl => occCount ss day.date sl.start).sum).sum) =
      ((g.map fun day => day.slots.countP fun sl => !sl.available).sum) := by
  refine congrArg List.sum (List.map_congr_left fun day hday => ?_)
  rw [List.map_congr_left fun sl hsl => hcons day hday sl hsl, sum_ite_not_eq_countP]

theorem inner_count {slots : List GridSlot} {t : Time} (hnd : (slots.map (·.start)).Nodup)
    (hmem : t ∈ slots.map (·.start)) :
    ((slots.map fun sl => if sl.start = t then 1 else 0).sum) = 1 := by
  induction slots with
  | nil => simp at hmem
  | cons a rest ih =>
    rw [List.map_cons, List.sum_cons]
    rw [List.map_cons, List.nodup_cons] at hnd
    by_cases h : a.start = t
    · rw [if_pos h]
      have hz : ((rest.map fun sl => if sl.start = t then 1 else 0).sum) = 0 := by
        apply List.sum_eq_zero
        intro x hx
        obtain ⟨sl, hsl, rfl⟩ := List.mem_map.mp hx
        rw [if_neg]
        intro hc
        exact hnd.1 (by rw [h, ← hc]; exact List.mem_map_of_mem _ hsl)
      rw [hz]
    · rw [if_neg h]
      rw [List.map_cons] at hmem
      rcases List.mem_cons.mp hmem with heq | hmem2
      · exact absurd heq.symm h
      · rw [ih hnd.2 hmem2]

theorem hit_sum_one {g : Grid} (hwf : WFgrid g) {d : Ymd} {t : Time}
    (hex : ∃ day ∈ g, day.date = d ∧ ∃ sl ∈ day.slots, sl.start = t) :
    ((g.map fun day => (day.slots.map fun sl =>
        if day.date = d ∧ sl.start = t then 1 else 0).sum).sum) = 1 := by
  obtain ⟨day, hday, hdd, sl, hslm, hslt⟩ := hex
  obtain ⟨pre, post, rfl⟩ := List.append_of_mem hday
  have hnd := hwf.1
  rw [List.map_append, List.map_cons] at hnd
  have hpre : ∀ x ∈ pre, x.date ≠ d := by
    intro x hx hxd
    have h2 := (List.nodup_append.mp hnd).2.2
    exact h2 (List.mem_map_of_mem _ hx)
      (by rw [hxd, ← hdd]; exact List.mem_cons_self _ _)
  have hpost : ∀ x ∈ post, x.date ≠ d := by
    intro x hx hxd
    have h2 := (List.nodup_append.mp hnd).2.1
    rw [List.nodup_cons] at h2
    exact h2.1 (by rw [hdd, ← hxd]; exact List.mem_map_of_mem _ hx)
  have hz : ∀ l : Grid, (∀ x ∈ l, x.date ≠ d) →
      ((l.map fun day' => (day'.slots.map fun sl' =>
        if day'.date = d ∧ sl'.start = t then 1 else 0).sum).sum) = 0 := by
    intro l hl
    apply List.sum_eq_zero
    intro x hx
    obtain ⟨day', hday', rfl⟩ := List.mem_map.mp hx
    apply List.sum_eq_zero
    intro z hz2
    obtain ⟨sl', hsl', rfl⟩ := List.mem_map.mp hz2
    rw [if_neg]
    intro hc
    exact hl day' hday' hc.1
  rw [List.map_append, List.map_cons, List.sum_append, List.sum_cons,
    hz pre hpre, hz post hpost]
  have hdaysum : ((day.slots.map fun sl' =>
      if day.date = d ∧ sl'.start = t then 1 else 0).sum) = 1 := by
    have hcong : (day.slots.map fun sl' => if day.date = d ∧ sl'.start = t then 1 else 0) =
        day.slots.map fun sl' => if sl'.start = t then 1 else 0 := by
      apply List.map_congr_left
      intro sl' _
      refine if_congr ⟨fun hc => hc.2, fun hc => ⟨hdd, hc⟩⟩ rfl rfl
    rw [hcong]
    exact inner_count (WF_starts_nodup hwf hday) (List.mem_map.mpr ⟨sl, hslm, hslt⟩)
  rw [hdaysum]
  omega

theorem grid_hits_eq_length {g : Grid} (hwf : WFgrid g) : ∀ (ss : List SessionRec),
    InGrid g ss →
    ((g.map fun day => (day.slots.map fun sl => occCount ss day.date sl.start).sum).sum) =
      ss.length := by
  intro ss
  induction ss with
  | nil =>
    intro _
    apply List.sum_eq_zero
    intro x hx
    obtain ⟨day, hday, rfl⟩ := List.mem_map.mp hx
    apply List.sum_eq_zero
    intro z hz
    obtain ⟨sl, hsl, rfl⟩ := List.mem_map.mp hz
    rfl
  | cons sess rest ih =>
    intro hing
    have hrest := ih fun s hs => hing s (List.mem_cons_of_mem _ hs)
    have hocc : ∀ (d : Ymd) (t : Time), occCount (sess :: rest) d t =
        occCount rest d t + if d = sess.date ∧ t = sess.startTime then 1 else 0 := by
      intro d t
      unfold occCount
      rw [List.countP_cons]
      congr 1
      by_cases hc : d = sess.date ∧ t = sess.startTime
      · rw [if_pos (by simp [hc.1, hc.2]), if_pos hc]
      · rw [if_neg hc, if_neg ?_]
        intro hb
        simp only [Bool.and_eq_true, beq_iff_eq] at hb
        exact hc ⟨hb.1.symm, hb.2.symm⟩
    have hpt : (g.map fun day => (day.slots.map fun sl =>
        occCount (sess :: rest) day.date sl.start).sum) =
        g.map fun day => (day.slots.map fun sl =>
          occCount rest day.date sl.start +
          if day.date = sess.date ∧ sl.start = sess.startTime then 1 else 0).sum := by
      apply List.map_congr_left
      intro day _
      refine congrArg List.sum (List.map_congr_left fun sl _ => ?_)
      exact hocc day.date sl.start
    rw [hpt, dsum_add, hrest, hit_sum_one hwf (hing sess (List.mem_cons_self _ _)),
      List.length_cons]

theorem total_free_sessions {g : Grid} {ss : List SessionRec}
    (hwf : WFgrid g) (hcons : Consistent g ss) (hing : InGrid g ss) :
    totalSlotCount g = freeSlotCount g + ss.length := by
  have h : ((g.map fun day => day.slots.countP fun sl => !sl.available).sum) = ss.length := by
    rw [← grid_occupied_eq g ss hcons]
    exact grid_hits_eq_length hwf ss hing
  rw [total_eq_free_add_occ, h]

/-! ## Quarter validation -/

theorem getWeekdaysInQuarter_error {q : String} (y : Nat)
    (h : ¬(q = "Q1" ∨ q = "Q2" ∨ q = "Q3" ∨ q = "Q4")) :
    getWeekdaysInQuarter q y = .error ("Invalid quarter: " ++ q) := by
  push_neg at h
  obtain ⟨h1, h2, h3, h4⟩ := h
  unfold getWeekdaysInQuarter getAllDatesInQuarter getQuarterDateRange QUARTERS
  rw [if_neg h1, if_neg h2, if_neg h3, if_neg h4]
  rfl

theorem getWeekdaysInQuarter_isOk {q : String} (y : Nat)
    (h : q = "Q1" ∨ q = "Q2" ∨ q = "Q3" ∨ q = "Q4") :
    ∃ qds, getWeekdaysInQuarter q y = .ok qds := by
  rcases h with rfl | rfl | rfl | rfl <;> exact ⟨_, rfl⟩

/-! ## Thanksgiving is the fourth Thursday of November -/

theorem nextDay_nov (y : Nat) : ∀ j : Nat, j < 30 → nextDay ⟨y, 11, j⟩ = ⟨y, 11, j + 1⟩ := by
  intro j hj
  unfold nextDay
  dsimp only
  rw [show daysInMonth y 11 = 30 from rfl, if_pos hj]

theorem dayOfWeek_nov (y : Nat) (j : Nat) :
    dayOfWeek ⟨y, 11, j⟩ = ((daysBeforeYear y + daysBeforeMonth y 11) % 7 + j) % 7 := by
  show (daysBeforeYear y + daysBeforeMonth y 11 + j) % 7 = _
  omega

theorem thanksgiving_fourth_thursday (y : Nat) :
    (getThanksgivingDate y).year = y ∧ (getThanksgivingDate y).month = 11 ∧
    dayOfWeek (getThanksgivingDate y) = 4 ∧
    22 ≤ (getThanksgivingDate y).day ∧ (getThanksgivingDate y).day ≤ 28 := by
  have hstep := dayOfWeek_nov y
  have hnext := nextDay_nov y
  obtain ⟨b, hb7, hbeq⟩ : ∃ b, b < 7 ∧ (daysBeforeYear y + daysBeforeMonth y 11) % 7 = b :=
    ⟨_, Nat.mod_lt _ (by norm_num), rfl⟩
  rw [hbeq] at hstep
  unfold getThanksgivingDate
  interval_cases b
  · have hres : thanksgivingLoop 31 0 ⟨y, 11, 1⟩ = ⟨y, 11, 25⟩ := by
      simp [thanksgivingLoop, hstep, hnext]
    rw [hres]
    refine ⟨rfl, rfl, by rw [hstep], by norm_num, by norm_num⟩
  · have hres : thanksgivingLoop 31 0 ⟨y, 11, 1⟩ = ⟨y, 11, 24⟩ := by
      simp [thanksgivingLoop, hstep, hnext]
    rw [hres]
    refine ⟨rfl, rfl, by rw [hstep], by norm_num, by norm_num⟩
  · have hres : thanksgivingLoop 31 0 ⟨y, 11, 1⟩ = ⟨y, 11, 23⟩ := by
      simp [thanksgivingLoop, hstep, hnext]
    rw [hres]
    refine ⟨rfl, rfl, by rw [hstep], by norm_num, by norm_num⟩
  · have hres : thanksgivingLoop 31 0 ⟨y, 11, 1⟩ = ⟨y, 11, 22⟩ := by
      simp [thanksgivingLoop, hstep, hnext]
    rw [hres]
    refine ⟨rfl, rfl, by rw [hstep], by norm_num, by norm_num⟩
  · have hres : thanksgivingLoop 31 0 ⟨y, 11, 1⟩ = ⟨y, 11, 28⟩ := by
      simp [thanksgivingLoop, hstep, hnext]
    rw [hres]
    refine ⟨rfl, rfl, by rw [hstep], by norm_num, by norm_num⟩
  · have hres : thanksgivingLoop 31 0 ⟨y, 11, 1⟩ = ⟨y, 11, 27⟩ := by
      simp [thanksgivingLoop, hstep, hnext]
    rw [hres]
    refine ⟨rfl, rfl, by rw [hstep], by norm_num, by norm_num⟩
  · have hres : thanksgivingLoop 31 0 ⟨y, 11, 1⟩ = ⟨y, 11, 26⟩ := by
      simp [thanksgivingLoop, hstep, hnext]
    rw [hres]
    refine ⟨rfl, rfl, by rw [hstep], by norm_num, by norm_num⟩

/-! ## Bridging the boolean adjacent-pair check -/

theorem chain'_adjacentAll : ∀ {l : List HistEntry},
    List.Chain' sepRelD l → adjacentAll sepOkB l = true := by
  intro l
  induction l with
  | nil => intro _; rfl
  | cons a rest ih =>
    intro h
    cases rest with
    | nil => rfl
    | cons b rest2 =>
      rw [show adjacentAll sepOkB (a :: b :: rest2) =
        (sepOkB a b && adjacentAll sepOkB (b :: rest2)) from rfl]
      rw [List.chain'_cons] at h
      rw [ih h.2, Bool.and_true]
      unfold sepOkB
      simp only [Bool.and_eq_true, bne_iff_ne, decide_eq_true_eq]
      exact ⟨h.1.1, h.1.2⟩

/-! ## Business day from a nonempty slot template -/

theorem bizDay_of_slots_nonempty {d : Ymd} (h : getAvailableTimeSlots d ≠ []) :
    bizDayB d = true := by
  by_cases h0 : dayOfWeek d = 0
  · exact absurd (gats_weekend (Or.inl h0)) h
  · by_cases h6 : dayOfWeek d = 6
    · exact absurd (gats_weekend (Or.inr h6)) h
    · have h7 := dayOfWeek_lt d
      unfold bizDayB
      simp only [Bool.and_eq_true, decide_eq_true_eq]
      omega

/-! ## Final helper lemmas for the claim statements -/

theorem occCount_le_one {g : Grid} {ss : List SessionRec} (hcore : CoreInv g ss) :
    ∀ (d : Ymd) (t : Time), occCount ss d t ≤ 1 := by
  intro d t
  by_cases h : occCount ss d t = 0
  · omega
  · have hpos : 0 < occCount ss d t := Nat.pos_of_ne_zero h
    obtain ⟨sess, hmem, hp⟩ := List.countP_pos.mp hpos
    simp only [Bool.and_eq_true, beq_iff_eq] at hp
    obtain ⟨day, hday, hdate, sl, hslm, hstart⟩ := hcore.inGrid sess hmem
    have hc := hcore.consistent day hday sl hslm
    rw [hdate, hp.1, hstart, hp.2] at hc
    rw [hc]
    split <;> omega

theorem session_start_in_gats {g : Grid} {ss : List SessionRec} (hcore : CoreInv g ss)
    {sess : SessionRec} (hmem : sess ∈ ss) :
    ∃ ts ∈ getAvailableTimeSlots sess.date, ts.start = sess.startTime := by
  obtain ⟨day, hday, hdate, sl, hslm, hstart⟩ := hcore.inGrid sess hmem
  have hmap := WF_starts_map hcore.wf hday
  have hin : sess.startTime ∈ (getAvailableTimeSlots day.date).map (·.start) := by
    rw [← hmap, ← hstart]
    exact List.mem_map_of_mem _ hslm
  rw [hdate] at hin
  obtain ⟨ts, hts, hte⟩ := List.mem_map.mp hin
  exact ⟨ts, hts, hte⟩

theorem chain'_imp_mem {R S : HistEntry → HistEntry → Prop} :
    ∀ {l : List HistEntry}, (∀ a ∈ l, ∀ b ∈ l, R a b → S a b) →
      List.Chain' R l → List.Chain' S l := by
  intro l
  induction l with
  | nil => intro _ _; exact List.chain'_nil
  | cons a rest ih =>
    intro hmem hch
    cases rest with
    | nil => exact List.chain'_singleton _
    | cons b r2 =>
      rw [List.chain'_cons] at hch ⊢
      refine ⟨hmem a (List.mem_cons_self _ _) b
        (List.mem_cons_of_mem _ (List.mem_cons_self _ _)) hch.1, ?_⟩
      exact ih (fun x hx y hy hr =>
        hmem x (List.mem_cons_of_mem _ hx) y (List.mem_cons_of_mem _ hy) hr) hch.2

theorem fsl_fi_dayOfWeek_irrelevant (w : String) (last : HistEntry) (x : String) :
    ∀ slots : List GridSlot, findSuitableSlotLoop true w (some last) slots =
      findSuitableSlotLoop true w (some { last with dayOfWeek := x }) slots := by
  intro slots
  induction slots with
  | nil => rfl
  | cons a rest ih =>
    rw [findSuitableSlotLoop_cons_some, findSuitableSlotLoop_cons_some, ih]
    dsimp only
    simp only [Bool.not_true, Bool.false_and]

theorem generateSchedule_error (courses : List Course) {q : String} (y : Nat)
    (hq : ¬(q = "Q1" ∨ q = "Q2" ∨ q = "Q3" ∨ q = "Q4")) :
    generateSchedule courses q y = .error ("Invalid quarter: " ++ q) := by
  unfold generateSchedule generateScheduleFull
  dsimp only
  rw [getWeekdaysInQuarter_error y hq]
  rfl

theorem generateSchedule_isOk (courses : List Course) {q : String} (y : Nat)
    (hq : q = "Q1" ∨ q = "Q2" ∨ q = "Q3" ∨ q = "Q4") :
    ∃ out, generateSchedule courses q y = .ok out := by
  obtain ⟨qds, hqds⟩ := getWeekdaysInQuarter_isOk y hq
  unfold generateSchedule generateScheduleFull
  dsimp only
  rw [hqds]
  exact ⟨_, rfl⟩

/-! ## The claims -/

/-- C1: at the end of a run, a grid slot is occupied exactly when exactly one
session of the returned list has its date and start time, and no two sessions
of the result share a (date, start-time) pair. -/
theorem claim_C1 (courses : List Course) (q : String) (y : Nat) (r : FullResult)
    (hy : 1 ≤ y) (h : generateScheduleFull courses q y = .ok r) :
    Consistent r.finalGrid r.scheduledSessions ∧
      ∀ (d : Ymd) (t : Time), occCount r.scheduledSessions d t ≤ 1 := by
  have hinv := generateScheduleFull_inv hy h
  exact ⟨hinv.core.consistent, occCount_le_one hinv.core⟩

/-- Witness for C1 at the concrete empty-course run. -/
theorem claim_C1_witness :
    Consistent emptyRun.finalGrid emptyRun.scheduledSessions ∧
      ∀ (d : Ymd) (t : Time), occCount emptyRun.scheduledSessions d t ≤ 1 :=
  claim_C1 [] "Q1" 1 emptyRun (le_refl 1) (by with_unfolding_all rfl)

/-- C2: a failed multi-week booking attempt is atomic: when
`scheduleCourseSessions` returns no sessions the grid it returns is exactly the
input grid, so in particular its free-slot and total-slot counts are
unchanged. -/
theorem claim_C2 (course : Course) (startDate : Ymd) (qds : List Ymd) (g : Grid)
    (outer : List SessionRec) (ch : History) (isFI : Bool)
    (ss : List SessionRec) (g' : Grid)
    (hqv : validDates qds) (hcore : CoreInv g outer)
    (hfi : isFI = isFinancialIntelligenceTitle course.title)
    (h : scheduleCourseSessions course startDate qds g ch isFI = (ss, g'))
    (hempty : ss = []) :
    g' = g ∧ freeSlotCount g' = freeSlotCount g ∧ totalSlotCount g' = totalSlotCount g := by
  obtain ⟨c1, -, -, -, -⟩ := scheduleCourseSessions_spec hqv hcore hfi h
  have hg := c1 hempty
  exact ⟨hg, by rw [hg], by rw [hg]⟩

/-- Witness for C2 at a concrete failing attempt (empty grid). -/
theorem claim_C2_witness :
    ([] : Grid) = ([] : Grid) ∧ freeSlotCount [] = freeSlotCount ([] : Grid) ∧
      totalSlotCount [] = totalSlotCount ([] : Grid) :=
  claim_C2 ⟨"c", 1, 1⟩ ⟨1, 4, 1⟩ [] [] [] [] false [] []
    (fun d hd => absurd hd (List.not_mem_nil d))
    ⟨⟨List.nodup_nil, fun day hday => absurd hday (List.not_mem_nil day),
        fun day hday => absurd hday (List.not_mem_nil day)⟩,
      fun day hday => absurd hday (List.not_mem_nil day),
      fun sess hs => absurd hs (List.not_mem_nil sess),
      fun sess hs => absurd hs (List.not_mem_nil sess)⟩
    (by with_unfolding_all rfl) rfl rfl

/-- C3 (amended): for every non-special course, every two instances that are
consecutive in booking order have start dates on different weekdays and start
times at least three hours apart.  (The original claim, with instances ordered
by start date instead of booking order, is refuted by
`claim_C3_counterexample`.) -/
theorem claim_C3 (courses : List Course) (q : String) (y : Nat) (r : FullResult)
    (hy : 1 ≤ y) (h : generateScheduleFull courses q y = .ok r)
    (t : String) (ht : isFinancialIntelligenceTitle t = false) :
    List.Chain' sepRelD (histOf r.courseHistory t) := by
  have hinv := generateScheduleFull_inv hy h
  have hdays := hinv.histDays t
  refine chain'_imp_mem ?_ (hinv.sepChain t ht)
  intro a ha b hb hr
  refine ⟨?_, hr.2⟩
  intro hc
  apply hr.1
  rw [hdays a ha, hdays b hb]
  unfold dayNameOf
  rw [hc]

/-- Witness for the amended C3 at the concrete empty-course run. -/
theorem claim_C3_witness :
    List.Chain' sepRelD (histOf emptyRun.courseHistory "c") :=
  claim_C3 [] "Q1" 1 emptyRun (le_refl 1) (by with_unfolding_all rfl) "c"
    (by with_unfolding_all rfl)

/-- Counterexample to C3 as stated: in the run of the single ordinary course
"crsx" (cadence 12, one session per instance) over Q1 of year 1, the booked
instances ordered by start date contain a consecutive pair on the same weekday
(or closer than three hours), because the engine only separates each instance
from the one booked immediately before it. -/
theorem claim_C3_counterexample :
    isFinancialIntelligenceTitle "crsx" = false ∧
    ∃ r, generateScheduleFull [⟨"crsx", 12, 1⟩] "Q1" 1 = .ok r ∧
      ¬ List.Chain' sepRelD (instancesByStartDate r "crsx") := by
  refine ⟨by with_unfolding_all rfl, crsxRun, by with_unfolding_all rfl, ?_⟩
  intro hch
  have hadj := chain'_adjacentAll hch
  rw [show adjacentAll sepOkB (instancesByStartDate crsxRun "crsx") = false
    from by with_unfolding_all rfl] at hadj
  cases hadj

/-- C4: every session of a special-rules (financial-intelligence) course falls
on Tuesday or Wednesday with start hour in [10, 13); and for such a course the
slot scan never rejects a slot because of the stored weekday of the most
recent instance (its result does not depend on that field at all). -/
theorem claim_C4 (courses : List Course) (q : String) (y : Nat) (r : FullResult)
    (hy : 1 ≤ y) (h : generateScheduleFull courses q y = .ok r) :
    (∀ sess ∈ r.scheduledSessions, isFinancialIntelligenceTitle sess.courseName = true →
      (dayNameOf sess.date = "TUESDAY" ∨ dayNameOf sess.date = "WEDNESDAY") ∧
        10 ≤ sess.startTime.h ∧ sess.startTime.h < 13) ∧
    (∀ (w : String) (last : HistEntry) (x : String) (slots : List GridSlot),
      findSuitableSlotLoop true w (some last) slots =
        findSuitableSlotLoop true w (some { last with dayOfWeek := x }) slots) := by
  have hinv := generateScheduleFull_inv hy h
  refine ⟨?_, fun w last x slots => fsl_fi_dayOfWeek_irrelevant w last x slots⟩
  intro sess hmem hfi
  have hv := hinv.core.fiWindows sess hmem hfi
  exact ⟨fiValid_day hv, fiValid_bounds hv⟩

/-- Witness for C4 at the concrete empty-course run. -/
theorem claim_C4_witness :
    (∀ sess ∈ emptyRun.scheduledSessions,
      isFinancialIntelligenceTitle sess.courseName = true →
      (dayNameOf sess.date = "TUESDAY" ∨ dayNameOf sess.date = "WEDNESDAY") ∧
        10 ≤ sess.startTime.h ∧ sess.startTime.h < 13) ∧
    (∀ (w : String) (last : HistEntry) (x : String) (slots : List GridSlot),
      findSuitableSlotLoop true w (some last) slots =
        findSuitableSlotLoop true w (some { last with dayOfWeek := x }) slots) :=
  claim_C4 [] "Q1" 1 emptyRun (le_refl 1) (by with_unfolding_all rfl)

/-- C5: a successful booking attempt produces exactly `course.sessions`
sessions numbered 1, 2, …, all with the same course name, start time and end
time, with dates exactly 7 days apart starting at the candidate start date,
hence all on the same weekday; a partial instance never appears. -/
theorem claim_C5 (course : Course) (s : Ymd) (n : Nat) (startDate : Ymd) (g : Grid)
    (outer : List SessionRec) (ch : History) (isFI : Bool)
    (ss : List SessionRec) (g' : Grid)
    (hs : validYmd s) (hmem : startDate ∈ quarterRange s n) (hcore : CoreInv g outer)
    (hfi : isFI = isFinancialIntelligenceTitle course.title)
    (h : scheduleCourseSessions course startDate (quarterRange s n) g ch isFI = (ss, g'))
    (hne : ss ≠ []) :
    ss.length = course.sessions ∧
    ss.map (·.sessionNumber) = List.range' 1 course.sessions ∧
    ss.map (·.date) = (List.range course.sessions).map (fun t => addDaysN (7 * t) startDate) ∧
    (∃ st et, ∀ a ∈ ss, a.courseName = course.title ∧ a.startTime = st ∧ a.endTime = et) ∧
    ∀ a ∈ ss, dayOfWeek a.date = dayOfWeek startDate := by
  obtain ⟨-, -, -, hnums, hne5⟩ :=
    scheduleCourseSessions_spec (quarterRange_valid hs) hcore hfi h
  obtain ⟨hlen, su, -, -, hfields⟩ := hne5 hne
  have hdates := scheduleCourseSessions_shape hs hmem h hne
  refine ⟨hlen, by rw [hnums, hlen], hdates,
    ⟨su.startTime, su.endTime, fun a ha => hfields a ha⟩, ?_⟩
  intro a ha
  have hmm : a.date ∈ ss.map (·.date) := List.mem_map_of_mem _ ha
  rw [hdates] at hmm
  obtain ⟨t, ht, hdt⟩ := List.mem_map.mp hmm
  rw [← hdt]
  have hsv : validYmd startDate := quarterRange_valid hs startDate hmem
  rw [dayOfWeek_addDaysN _ hsv]
  unfold dayOfWeek
  omega

/-- Witness for C5 at a concrete successful one-session booking. -/
theorem claim_C5_witness :
    c5run.1.length = (⟨"c", 1, 1⟩ : Course).sessions ∧
    c5run.1.map (·.sessionNumber) = List.range' 1 (⟨"c", 1, 1⟩ : Course).sessions ∧
    c5run.1.map (·.date) = (List.range (⟨"c", 1, 1⟩ : Course).sessions).map
      (fun t => addDaysN (7 * t) ⟨1, 4, 2⟩) ∧
    (∃ st et, ∀ a ∈ c5run.1, a.courseName = (⟨"c", 1, 1⟩ : Course).title ∧
      a.startTime = st ∧ a.endTime = et) ∧
    ∀ a ∈ c5run.1, dayOfWeek a.date = dayOfWeek ⟨1, 4, 2⟩ :=
  claim_C5 ⟨"c", 1, 1⟩ ⟨1, 4, 1⟩ 5 ⟨1, 4, 2⟩
    (initAvailabilityGrid (quarterRange ⟨1, 4, 1⟩ 5)) [] [] false c5run.1 c5run.2
    (by decide) (by decide)
    (engineInv_init (quarterRange_pairwise (by decide) 5)).core
    (by with_unfolding_all rfl) rfl (by decide)

/-- C6: the run raises exactly for an unrecognized quarter identifier, with the
error "Invalid quarter: <q>", before any grid state exists; for the four
recognized identifiers it completes with a result (the cadence hypothesis
records that the source loop advances only when every cadence is positive). -/
theorem claim_C6 (courses : List Course) (q : String) (y : Nat)
    (hcad : ∀ c ∈ courses, 1 ≤ c.cadence) :
    ((∃ out, generateSchedule courses q y = .ok out) ↔
      (q = "Q1" ∨ q = "Q2" ∨ q = "Q3" ∨ q = "Q4")) ∧
    (¬(q = "Q1" ∨ q = "Q2" ∨ q = "Q3" ∨ q = "Q4") →
      generateSchedule courses q y = .error ("Invalid quarter: " ++ q)) := by
  refine ⟨⟨?_, ?_⟩, fun hq => generateSchedule_error courses y hq⟩
  · rintro ⟨out, hout⟩
    by_contra hq
    rw [generateSchedule_error courses y hq] at hout
    cases hout
  · intro hq
    exact generateSchedule_isOk courses y hq

/-- Witness for C6 at a concrete recognized quarter. -/
theorem claim_C6_witness :
    ((∃ out, generateSchedule [] "Q1" 1 = .ok out) ↔
      ("Q1" = "Q1" ∨ "Q1" = "Q2" ∨ "Q1" = "Q3" ∨ "Q1" = "Q4")) ∧
    (¬("Q1" = "Q1" ∨ "Q1" = "Q2" ∨ "Q1" = "Q3" ∨ "Q1" = "Q4") →
      generateSchedule [] "Q1" 1 = .error ("Invalid quarter: " ++ "Q1")) :=
  claim_C6 [] "Q1" 1 (fun c hc => absurd hc (List.not_mem_nil c))

/-- C7: on a business weekday that is a restricted (partial-day) date of its
year and not a full-day exclusion date, the available slots are exactly the
weekday template's slots starting strictly before the cutoff, in template
order; consequently no scheduled session on such a date starts at or after the
cutoff. -/
theorem claim_C7 :
    (∀ (d : Ymd) (c : Time), bizDayB d = true →
      (d, c) ∈ (getSpecialDatesForYear d.year).restrictedDates →
      d ∉ (getSpecialDatesForYear d.year).noSessionDates →
      getAvailableTimeSlots d = ((WEEKLY_SCHEDULE (dayNameOf d)).getD []).filter
        (fun slot => decide (hhmm slot.start < hhmm c))) ∧
    (∀ (courses : List Course) (q : String) (y : Nat) (r : FullResult), 1 ≤ y →
      generateScheduleFull courses q y = .ok r →
      ∀ sess ∈ r.scheduledSessions, ∀ c : Time,
        (sess.date, c) ∈ (getSpecialDatesForYear sess.date.year).restrictedDates →
        sess.date ∉ (getSpecialDatesForYear sess.date.year).noSessionDates →
        hhmm sess.startTime < hhmm c) := by
  refine ⟨fun d c hb hm hn => gats_restricted hb hm hn, ?_⟩
  intro courses q y r hy h sess hmem c hrc hnx
  have hinv := generateScheduleFull_inv hy h
  obtain ⟨ts, hts, hte⟩ := session_start_in_gats hinv.core hmem
  have hbz : bizDayB sess.date = true := bizDay_of_slots_nonempty (by
    intro hemp
    rw [hemp] at hts
    exact absurd hts (List.not_mem_nil ts))
  rw [gats_restricted hbz hrc hnx] at hts
  have hlt := List.of_mem_filter hts
  rw [← hte]
  simpa using hlt

/-- Witness for C7 at the concrete restricted date April 17 of year 1 (a
Tuesday with cutoff 8:30). -/
theorem claim_C7_witness :
    getAvailableTimeSlots ⟨1, 4, 17⟩ =
      ((WEEKLY_SCHEDULE (dayNameOf ⟨1, 4, 17⟩)).getD []).filter
        (fun slot => decide (hhmm slot.start < hhmm ⟨8, 30⟩)) :=
  claim_C7.1 ⟨1, 4, 17⟩ ⟨8, 30⟩ (by decide) (by decide) (by decide)

/-- C8: weekends and the year's full-day exclusion dates (January 1, July 4,
December 25, and the computed Thanksgiving, which is the fourth Thursday of
November) have no available slots, and no scheduled session ever falls on such
a date. -/
theorem claim_C8 :
    (∀ d : Ymd, (dayOfWeek d = 0 ∨ dayOfWeek d = 6 ∨
        d ∈ (getSpecialDatesForYear d.year).noSessionDates) →
      getAvailableTimeSlots d = []) ∧
    (∀ y : Nat, (getThanksgivingDate y).year = y ∧ (getThanksgivingDate y).month = 11 ∧
      dayOfWeek (getThanksgivingDate y) = 4 ∧
      22 ≤ (getThanksgivingDate y).day ∧ (getThanksgivingDate y).day ≤ 28) ∧
    (∀ (courses : List Course) (q : String) (y : Nat) (r : FullResult), 1 ≤ y →
      generateScheduleFull courses q y = .ok r →
      ∀ sess ∈ r.scheduledSessions,
        dayOfWeek sess.date ≠ 0 ∧ dayOfWeek sess.date ≠ 6 ∧
        sess.date ∉ (getSpecialDatesForYear sess.date.year).noSessionDates) := by
  refine ⟨?_, thanksgiving_fourth_thursday, ?_⟩
  · rintro d (h | h | h)
    · exact gats_weekend (Or.inl h)
    · exact gats_weekend (Or.inr h)
    · exact gats_noSession h
  · intro courses q y r hy h sess hmem
    have hinv := generateScheduleFull_inv hy h
    obtain ⟨ts, hts, -⟩ := session_start_in_gats hinv.core hmem
    have hne : getAvailableTimeSlots sess.date ≠ [] := by
      intro hemp
      rw [hemp] at hts
      exact absurd hts (List.not_mem_nil ts)
    refine ⟨?_, ?_, ?_⟩
    · intro h0
      exact hne (gats_weekend (Or.inl h0))
    · intro h6
      exact hne (gats_weekend (Or.inr h6))
    · intro hns
      exact hne (gats_noSession hns)

/-- Witness for C8 at the concrete exclusion date January 1 of year 1. -/
theorem claim_C8_witness : getAvailableTimeSlots ⟨1, 1, 1⟩ = [] :=
  claim_C8.1 ⟨1, 1, 1⟩ (Or.inr (Or.inr (by decide)))

/-- C9: the run's statistics fields are the grid's slot totals, free-slot
count, session count, the rounded utilization percentage (zero when there are
no slots) bounded by 0 and 100, with total = free + scheduled, and the
fully-booked dates are exactly the grid dates with slots but no free slot, in
grid order. -/
theorem claim_C9 (courses : List Course) (q : String) (y : Nat) (r : FullResult)
    (hy : 1 ≤ y) (h : generateScheduleFull courses q y = .ok r) :
    r.statistics.totalAvailableSlots = totalSlotCount r.finalGrid ∧
    r.statistics.slotsAfterScheduling = freeSlotCount r.finalGrid ∧
    r.statistics.totalScheduledSessions = r.scheduledSessions.length ∧
    r.statistics.utilizationPercentage =
      utilizationSpec (totalSlotCount r.finalGrid) (freeSlotCount r.finalGrid) ∧
    0 ≤ r.statistics.utilizationPercentage ∧ r.statistics.utilizationPercentage ≤ 100 ∧
    r.statistics.totalAvailableSlots =
      r.statistics.slotsAfterScheduling + r.statistics.totalScheduledSessions ∧
    r.statistics.fullyBookedDates = fullyBookedSpec r.finalGrid := by
  have hinv := generateScheduleFull_inv hy h
  obtain ⟨qds, hq, raw, hrun, hsort, hstats⟩ := generateScheduleFull_ok h
  rw [hstats, calculateStatistics_fields]
  obtain ⟨hb0, hb1⟩ := utilizationSpec_bounds (freeSlotCount_le r.finalGrid)
  exact ⟨rfl, rfl, rfl, rfl, hb0, hb1,
    total_free_sessions hinv.core.wf hinv.core.consistent hinv.core.inGrid, rfl⟩

/-- Witness for C9 at the concrete empty-course run. -/
theorem claim_C9_witness :
    emptyRun.statistics.totalAvailableSlots = totalSlotCount emptyRun.finalGrid ∧
    emptyRun.statistics.slotsAfterScheduling = freeSlotCount emptyRun.finalGrid ∧
    emptyRun.statistics.totalScheduledSessions = emptyRun.scheduledSessions.length ∧
    emptyRun.statistics.utilizationPercentage =
      utilizationSpec (totalSlotCount emptyRun.finalGrid) (freeSlotCount emptyRun.finalGrid) ∧
    0 ≤ emptyRun.statistics.utilizationPercentage ∧
    emptyRun.statistics.utilizationPercentage ≤ 100 ∧
    emptyRun.statistics.totalAvailableSlots =
      emptyRun.statistics.slotsAfterScheduling +
        emptyRun.statistics.totalScheduledSessions ∧
    emptyRun.statistics.fullyBookedDates = fullyBookedSpec emptyRun.finalGrid :=
  claim_C9 [] "Q1" 1 emptyRun (le_refl 1) (by with_unfolding_all rfl)

/-- C10: a special-rules course is booked at most once in a run: its history
never holds more than one instance, and at most one session numbered 1 with
its title appears in the result. -/
theorem claim_C10 (courses : List Course) (q : String) (y : Nat) (r : FullResult)
    (hy : 1 ≤ y) (h : generateScheduleFull courses q y = .ok r)
    (t : String) (ht : isFinancialIntelligenceTitle t = true) :
    (histOf r.courseHistory t).length ≤ 1 ∧
    (r.scheduledSessions.countP fun s => s.courseName == t && s.sessionNumber == 1) ≤ 1 := by
  have hinv := generateScheduleFull_inv hy h
  refine ⟨hinv.fiHistLen t ht, ?_⟩
  rw [hinv.instCount t]
  exact hinv.fiHistLen t ht

/-- Witness for C10 at the concrete empty-course run. -/
theorem claim_C10_witness :
    (histOf emptyRun.courseHistory "financial intelligence").length ≤ 1 ∧
    (emptyRun.scheduledSessions.countP fun s =>
      s.courseName == "financial intelligence" && s.sessionNumber == 1) ≤ 1 :=
  claim_C10 [] "Q1" 1 emptyRun (le_refl 1) (by with_unfolding_all rfl)
    "financial intelligence" (by with_unfolding_all rfl)

end CourseScheduler
